import Mathlib

/-!
Verification of the two SAT-solver source files of this repository,
`comparison.py` and `resolution.py`.  Each file implements three decision
procedures (resolution saturation, Davis-Putnam, DPLL) over CNF formulas
whose literals are nonzero integers.

`comparison.py` represents a clause as a Python `frozenset` of integers and a
formula as a list of such frozensets; we model clauses as `Finset ℤ` and
formulas as `List (Finset ℤ)`.  `resolution.py` represents a clause as a list
of integers and a formula as a list of lists; we model them as `List ℤ` and
`List (List ℤ)`.

The recursive solvers and the saturation loops are modelled with an explicit
fuel parameter, returning `none` when the fuel runs out (and in branches
where the Python code would raise an exception); the top-level solvers apply
the loops with a fuel that is proved sufficient, so totality of each solver
is itself a theorem rather than an artifact of the encoding.

Semantics: an assignment maps every integer to a Bool; `litVal σ l` is the
truth value of the literal `l` (a positive literal reads the assignment, a
negative literal reads the negated assignment of its variable).
-/

/-- Truth value of a literal under an assignment of variables (positive
integers) to booleans. -/
def litVal (σ : ℤ → Bool) (l : ℤ) : Bool :=
  if 0 < l then σ l else !σ (-l)

namespace comparison

/-- The chosen literal of a clause, modelling the deterministic but otherwise
arbitrary choice `next(iter(frozenset))` of comparison.py (lines 36, 60, 90)
as the minimum of the clause; `0` is returned for the empty clause, on which
the Python expression would raise `StopIteration`. -/
def first_lit (c : Finset ℤ) : ℤ :=
  if h : c.Nonempty then c.min' h else 0

/-- All literals occurring in a formula (`{l for c in cnf for l in c}`,
line 77 of comparison.py). -/
def lits_of (cnf : List (Finset ℤ)) : Finset ℤ :=
  cnf.foldr (· ∪ ·) ∅

/-- All variables (absolute values of literals) occurring in a formula. -/
def vars_of (cnf : List (Finset ℤ)) : Finset ℤ :=
  (lits_of cnf).image (fun l => |l|)

/-- One round of resolvent generation of `resolution_solver`
(comparison.py lines 15-21): every resolvent `(ci ∪ cj) - {l, -l}` for a
pair of distinct clauses of the working set and a literal `l ∈ ci` with
`-l ∈ cj`.  `combinations(clauses, 2)` enumerates each unordered pair once,
but the inner loop over `l ∈ ci` with `-l ∈ cj` is symmetric in the pair, so
the set of resolvents generated equals the one over ordered distinct pairs
used here. -/
def all_resolvents (clauses : Finset (Finset ℤ)) : Finset (Finset ℤ) :=
  clauses.biUnion fun ci => (clauses.erase ci).biUnion fun cj =>
    (ci.filter fun l => -l ∈ cj).image fun l => (ci ∪ cj) \ {l, -l}

/-- The `while True` saturation loop of `resolution_solver` (comparison.py
lines 14-25): derive all resolvents of the current working set; an empty
resolvent means UNSAT, no new resolvent means SAT, otherwise merge and
repeat (`new` is cleared after each merge, line 25). -/
def resolution_loop : ℕ → Finset (Finset ℤ) → Option Bool
  | 0, _ => none
  | n+1, clauses =>
    let R := all_resolvents clauses
    if ∅ ∈ R then some false
    else if R ⊆ clauses then some true
    else resolution_loop n (clauses ∪ R)

/-- `resolution_solver` of comparison.py (lines 7-25): run the saturation
loop on `set(cnf)`.  The fuel `2 ^ |lits| + 1` is proved sufficient below. -/
def resolution_solver (cnf : List (Finset ℤ)) : Option Bool :=
  resolution_loop (2 ^ (lits_of cnf).card + 1) cnf.toFinset

/-- The branching variable of `dp_solver` (comparison.py lines 36-37):
`var = abs(next(iter(next(iter(cnf)))))`. -/
def dp_pick (cnf : List (Finset ℤ)) : ℤ :=
  |first_lit cnf.headI|

/-- The formula `others + resolvents` that `dp_solver` recurses on
(comparison.py lines 38-46): partition the clauses on the variable `v` and
resolve every positive clause with every negative clause on `v`. -/
def dp_next (cnf : List (Finset ℤ)) (v : ℤ) : List (Finset ℤ) :=
  let pos := cnf.filter (fun c => v ∈ c)
  let neg := cnf.filter (fun c => -v ∈ c)
  let others := cnf.filter (fun c => v ∉ c ∧ -v ∉ c)
  let resolvents := pos.flatMap (fun c1 => neg.map (fun c2 => (c1 ∪ c2) \ ({v, -v} : Finset ℤ)))
  others ++ resolvents

/-- `dp_solver` of comparison.py (lines 27-46) with explicit fuel: empty
formula is SAT, a formula with an empty clause is UNSAT, otherwise eliminate
the picked variable and recurse. -/
def dp_solver_fuel : ℕ → List (Finset ℤ) → Option Bool
  | 0, _ => none
  | n+1, cnf =>
    if cnf = [] then some true
    else if cnf.any (fun c => c.card == 0) then some false
    else dp_solver_fuel n (dp_next cnf (dp_pick cnf))

/-- `dp_solver` of comparison.py; the fuel `|vars| + 1` is proved
sufficient below. -/
def dp_solver (cnf : List (Finset ℤ)) : Option Bool :=
  dp_solver_fuel ((vars_of cnf).card + 1) cnf

/-- A family of clauses is balanced when the complement of every literal of
its union also occurs in the union.  (A verification device for analysing
`dp_solver` of comparison.py, not part of the source.) -/
def balanced (C : Finset (Finset ℤ)) : Prop :=
  ∀ l ∈ C.sup id, -l ∈ C.sup id

/-- A clause set has a balanced core when some nonempty subset of it is
balanced.  `dp_solver` of comparison.py is proved below to answer UNSAT on
exactly the formulas whose clause set has a balanced core; since this
criterion only depends on the clause set, the verdict of `dp_solver` is
independent of clause order and duplication. -/
def has_balanced (S : Finset (Finset ℤ)) : Prop :=
  ∃ C ∈ S.powerset, C.Nonempty ∧ balanced C

/-- The `new_cnf` construction shared by the unit-propagation loop
(comparison.py lines 63-74) and the branching step (lines 94-102): drop
every clause containing `l` and remove `-l` from the remaining clauses. -/
def reduce (cnf : List (Finset ℤ)) (l : ℤ) : List (Finset ℤ) :=
  cnf.filterMap (fun c =>
    if l ∈ c then none
    else if -l ∈ c then some (c.erase (-l))
    else some c)

/-- The unit-propagation `while` loop of `dpll_solver` (comparison.py lines
56-74): as long as a unit clause exists, take the literal `l` of the first
one and rebuild the formula; the Python loop returns `False` as soon as
removing `-l` empties a clause (lines 69-70), which happens exactly when
some clause satisfies `l ∉ c ∧ -l ∈ c ∧ c.erase (-l) = ∅`.  Result
`some none` models that early `return False`; `some (some cnf)` is the
propagated formula. -/
def unit_prop : ℕ → List (Finset ℤ) → Option (Option (List (Finset ℤ)))
  | 0, _ => none
  | n+1, cnf =>
    match cnf.filter (fun c => c.card == 1) with
    | [] => some (some cnf)
    | u :: _ =>
      let l := first_lit u
      if cnf.any (fun c => l ∉ c ∧ -l ∈ c ∧ c.erase (-l) = ∅) then some none
      else unit_prop n (reduce cnf l)

/-- The pure literals of a formula (comparison.py lines 77-78): literals
whose negation does not occur. -/
def pure_lits (cnf : List (Finset ℤ)) : Finset ℤ :=
  (lits_of cnf).filter (fun l => -l ∉ lits_of cnf)

/-- The pure-literal elimination loop of `dpll_solver` (comparison.py lines
79-82): for each pure literal `l` in turn, keep only the clauses not
containing `l`.  The set `pures` is computed once before the loop and each
iteration is a plain filter, so the sequential loop amounts to this single
filter, whatever the unspecified iteration order of the Python set. -/
def pure_elim (cnf : List (Finset ℤ)) : List (Finset ℤ) :=
  cnf.filter (fun c => ∀ l ∈ pure_lits cnf, l ∉ c)

/-- `dpll_solver` of comparison.py (lines 48-105) with explicit fuel: unit
propagation, pure-literal elimination, terminal checks, then branching on
the picked variable with `val = True` first (short-circuiting `or`).  The
write-only `assignment` dictionary of the source, which never influences
the returned verdict, is omitted. -/
def dpll_solver_fuel : ℕ → List (Finset ℤ) → Option Bool
  | 0, _ => none
  | n+1, cnf =>
    match unit_prop ((vars_of cnf).card + 1) cnf with
    | none => none
    | some none => some false
    | some (some cnf1) =>
      let cnf2 := pure_elim cnf1
      if cnf2 = [] then some true
      else if cnf2.any (fun c => c.card == 0) then some false
      else
        let v := |first_lit cnf2.headI|
        match dpll_solver_fuel n (reduce cnf2 v) with
        | some true => some true
        | some false => dpll_solver_fuel n (reduce cnf2 (-v))
        | none => none

/-- `dpll_solver` of comparison.py; the fuel `|vars| + 1` is proved
sufficient below. -/
def dpll_solver (cnf : List (Finset ℤ)) : Option Bool :=
  dpll_solver_fuel ((vars_of cnf).card + 1) cnf

/-- A clause is satisfied when one of its literals is true. -/
def clauseSat (σ : ℤ → Bool) (c : Finset ℤ) : Prop :=
  ∃ l ∈ c, litVal σ l = true

/-- A formula is satisfied when all of its clauses are. -/
def cnfSat (σ : ℤ → Bool) (cnf : List (Finset ℤ)) : Prop :=
  ∀ c ∈ cnf, clauseSat σ c

/-- Satisfiability of a comparison.py formula. -/
def satisfiable (cnf : List (Finset ℤ)) : Prop :=
  ∃ σ, cnfSat σ cnf

/-- Well-formed input: the pseudo-literal `0`, which has no valid
variable/polarity reading, occurs in no clause. -/
def zero_free (cnf : List (Finset ℤ)) : Prop :=
  ∀ c ∈ cnf, (0 : ℤ) ∉ c

end comparison

namespace resolution

/-- `Clause = List[int]` of resolution.py line 5. -/
abbrev Clause := List ℤ

/-- `CNFFormula = List[Clause]` of resolution.py line 6. -/
abbrev CNFFormula := List Clause

/-- `simplify` of resolution.py (lines 56-63): drop every clause containing
`literal` and remove `-literal` from each remaining clause, keeping the
clause even when it becomes empty. -/
def simplify (cnf : CNFFormula) (literal : ℤ) : CNFFormula :=
  match cnf with
  | [] => []
  | clause :: rest =>
    if literal ∈ clause then simplify rest literal
    else clause.filter (fun x => x ≠ -literal) :: simplify rest literal

/-- All literals occurring in a formula. -/
def lits_of (cnf : CNFFormula) : Finset ℤ :=
  cnf.flatten.toFinset

/-- All variables (absolute values of literals) occurring in a formula. -/
def vars_of (cnf : CNFFormula) : Finset ℤ :=
  (lits_of cnf).image (fun l => |l|)

/-- `resolve` of resolution.py (lines 30-36): all resolvents
`(ci ∪ cj) - {l, -l}` for `l ∈ ci` with `-l ∈ cj`; the returned Python list
is only ever used as a set (membership test of the empty clause and
`new.update`), so it is modelled as a `Finset`. -/
def resolve (ci cj : Finset ℤ) : Finset (Finset ℤ) :=
  (ci.filter fun l => -l ∈ cj).image fun l => (ci ∪ cj) \ {l, -l}

/-- The resolvents of all ordered pairs of distinct clauses
(`pairs = [(c1, c2) for c1 in clauses for c2 in clauses if c1 != c2]`,
resolution.py line 19). -/
def all_resolvents (clauses : Finset (Finset ℤ)) : Finset (Finset ℤ) :=
  clauses.biUnion fun ci => (clauses.erase ci).biUnion fun cj => resolve ci cj

/-- The `while True` loop of `resolution_solver` of resolution.py (lines
17-27).  Unlike comparison.py, the accumulator `new` is never cleared, so it
is part of the loop state. -/
def resolution_loop : ℕ → Finset (Finset ℤ) → Finset (Finset ℤ) → Option Bool
  | 0, _, _ => none
  | n+1, clauses, new =>
    let R := all_resolvents clauses
    if ∅ ∈ R then some false
    else
      let new2 := new ∪ R
      if new2 ⊆ clauses then some true
      else resolution_loop n (clauses ∪ new2) new2

/-- `resolution_solver` of resolution.py (lines 14-27): run the saturation
loop on `set(frozenset(c) for c in cnf)` with `new` initially empty. -/
def resolution_solver (cnf : CNFFormula) : Option Bool :=
  resolution_loop (2 ^ (lits_of cnf).card + 1) (cnf.map List.toFinset).toFinset ∅

/-- `dp_recursive` of resolution.py (lines 43-53) with explicit fuel: an
empty clause means UNSAT, the empty formula means SAT; otherwise split on
`variable = abs(cnf[0][0])`, trying `variable` true first (short-circuiting
`or`).  The `[] :: _` branch is unreachable because `[] ∈ cnf` was already
ruled out; the write-only `assignment` argument of the source is omitted. -/
def dp_recursive : ℕ → CNFFormula → Option Bool
  | 0, _ => none
  | n+1, cnf =>
    if [] ∈ cnf then some false
    else match cnf with
      | [] => some true
      | (l :: _) :: _ =>
        let v := |l|
        match dp_recursive n (simplify cnf v) with
        | some true => some true
        | some false => dp_recursive n (simplify cnf (-v))
        | none => none
      | [] :: _ => none

/-- `dp_solver` of resolution.py (lines 39-40); the fuel `|vars| + 1` is
proved sufficient below. -/
def dp_solver (cnf : CNFFormula) : Option Bool :=
  dp_recursive ((vars_of cnf).card + 1) cnf

/-- The unit-propagation `while` loop of `dpll_recursive` (resolution.py
lines 77-84): while a unit clause exists, simplify by its literal
(`unit_clauses[0][0]`) and fail as soon as an empty clause appears.  The
`[] :: _` branch is unreachable since every filtered clause has length 1. -/
def unit_prop : ℕ → CNFFormula → Option (Option CNFFormula)
  | 0, _ => none
  | n+1, cnf =>
    match cnf.filter (fun c => c.length == 1) with
    | [] => some (some cnf)
    | (l :: _) :: _ =>
      let cnf2 := simplify cnf l
      if [] ∈ cnf2 then some none
      else unit_prop n cnf2
    | [] :: _ => some none

/-- The pure-literal elimination loop of `dpll_recursive` (resolution.py
lines 87-91): with the literal set computed once up front, simplify by every
literal whose negation is not in that set.  The iteration order over the
Python set `literals` is unspecified; it is modelled as first-occurrence
order via `dedup` (each step only deletes whole clauses, so the result does
not depend on the order). -/
def pure_elim (cnf : CNFFormula) : CNFFormula :=
  let lits := cnf.flatten.dedup
  lits.foldl (fun acc lit => if -lit ∈ lits then acc else simplify acc lit) cnf

/-- `dpll_recursive` of resolution.py (lines 70-98) with explicit fuel:
terminal checks, unit propagation, pure-literal elimination, the `not cnf`
re-check, then branching on `variable = abs(cnf[0][0])` with the positive
branch first (short-circuiting `or`).  The final wildcard branch is
unreachable (the branching step never sees an empty clause, which is claim
C10 below); the write-only `assignment` argument of the source is
omitted. -/
def dpll_recursive : ℕ → CNFFormula → Option Bool
  | 0, _ => none
  | n+1, cnf =>
    if [] ∈ cnf then some false
    else if cnf = [] then some true
    else match unit_prop ((vars_of cnf).card + 1) cnf with
      | none => none
      | some none => some false
      | some (some cnf1) =>
        let cnf2 := pure_elim cnf1
        if cnf2 = [] then some true
        else match cnf2 with
          | (l :: _) :: _ =>
            let v := |l|
            match dpll_recursive n (simplify cnf2 v) with
            | some true => some true
            | some false => dpll_recursive n (simplify cnf2 (-v))
            | none => none
          | _ => none

/-- `dpll_solver` of resolution.py (lines 66-67); the fuel `|vars| + 1` is
proved sufficient below. -/
def dpll_solver (cnf : CNFFormula) : Option Bool :=
  dpll_recursive ((vars_of cnf).card + 1) cnf

/-- A clause is satisfied when one of its literals is true. -/
def clauseSat (σ : ℤ → Bool) (c : Clause) : Prop :=
  ∃ l ∈ c, litVal σ l = true

/-- A formula is satisfied when all of its clauses are. -/
def cnfSat (σ : ℤ → Bool) (cnf : CNFFormula) : Prop :=
  ∀ c ∈ cnf, clauseSat σ c

/-- Satisfiability of a resolution.py formula. -/
def satisfiable (cnf : CNFFormula) : Prop :=
  ∃ σ, cnfSat σ cnf

/-- Well-formed input: the pseudo-literal `0` occurs in no clause. -/
def zero_free (cnf : CNFFormula) : Prop :=
  ∀ c ∈ cnf, (0 : ℤ) ∉ c

end resolution

/-- Modelled from the spec, section 4.3 steps 4-6 (the claim C4 wording):
the formula `others ∪ resolvents` obtained by partitioning the clauses on
the variable `v` and resolving every positive clause with every negative
clause, over the list-of-lists representation of resolution.py (clauses
compared up to their literal sets). -/
def dp_elim_step (cnf : resolution.CNFFormula) (v : ℤ) : resolution.CNFFormula :=
  let pos := cnf.filter (fun c => v ∈ c)
  let neg := cnf.filter (fun c => -v ∈ c)
  let others := cnf.filter (fun c => v ∉ c ∧ -v ∉ c)
  let resolvents := pos.flatMap (fun c1 => neg.map (fun c2 => (c1 ++ c2).filter (fun x => x ≠ v ∧ x ≠ -v)))
  others ++ resolvents

namespace resolution

theorem simplify_eq (cnf : CNFFormula) (l : ℤ) :
    simplify cnf l = (cnf.filter (fun c => l ∉ c)).map (fun c => c.filter (fun x => x ≠ -l)) := by
  induction cnf with
  | nil => rfl
  | cons c rest ih =>
    by_cases h : l ∈ c <;> simp [simplify, List.filter_cons, h, ih]

theorem mem_simplify {cnf : CNFFormula} {l : ℤ} {c' : Clause} :
    c' ∈ simplify cnf l ↔ ∃ c ∈ cnf, l ∉ c ∧ c' = c.filter (fun x => x ≠ -l) := by
  simp only [simplify_eq, List.mem_map, List.mem_filter, decide_eq_true_eq]
  constructor
  · rintro ⟨c, ⟨hc, hl⟩, rfl⟩; exact ⟨c, hc, hl, rfl⟩
  · rintro ⟨c, hc, hl, rfl⟩; exact ⟨c, ⟨hc, hl⟩, rfl⟩

theorem length_simplify_le (cnf : CNFFormula) (l : ℤ) :
    (simplify cnf l).length ≤ cnf.length := by
  rw [simplify_eq, List.length_map]
  exact List.length_filter_le _ _

theorem mem_of_mem_simplify {cnf : CNFFormula} {l x : ℤ} {c' : Clause}
    (hc' : c' ∈ simplify cnf l) (hx : x ∈ c') :
    (∃ c ∈ cnf, x ∈ c) ∧ x ≠ l ∧ x ≠ -l := by
  rcases mem_simplify.1 hc' with ⟨c, hc, hl, rfl⟩
  rcases List.mem_filter.1 hx with ⟨hxc, hxl⟩
  have hxl' : x ≠ -l := by simpa using hxl
  exact ⟨⟨c, hc, hxc⟩, fun h => hl (h ▸ hxc), hxl'⟩

theorem mem_lits_of {cnf : CNFFormula} {x : ℤ} :
    x ∈ lits_of cnf ↔ ∃ c ∈ cnf, x ∈ c := by
  simp [lits_of, List.mem_flatten]

theorem mem_vars_of {cnf : CNFFormula} {v : ℤ} :
    v ∈ vars_of cnf ↔ ∃ l, (∃ c ∈ cnf, l ∈ c) ∧ |l| = v := by
  simp [vars_of, mem_lits_of]

theorem vars_of_simplify_subset (cnf : CNFFormula) (l : ℤ) :
    vars_of (simplify cnf l) ⊆ (vars_of cnf).erase |l| := by
  intro v hv
  rcases mem_vars_of.1 hv with ⟨x, ⟨c', hc', hx⟩, rfl⟩
  rcases mem_of_mem_simplify hc' hx with ⟨⟨c, hc, hxc⟩, hxl, hxl'⟩
  refine Finset.mem_erase.2 ⟨?_, mem_vars_of.2 ⟨x, ⟨c, hc, hxc⟩, rfl⟩⟩
  intro h
  rcases abs_eq_abs.1 h with h' | h'
  · exact hxl h'
  · exact hxl' h'

theorem var_mem_vars_of {cnf : CNFFormula} {c : Clause} {l : ℤ}
    (hc : c ∈ cnf) (hl : l ∈ c) : |l| ∈ vars_of cnf :=
  mem_vars_of.2 ⟨l, ⟨c, hc, hl⟩, rfl⟩

theorem zero_free_simplify {cnf : CNFFormula} {l : ℤ}
    (h : zero_free cnf) : zero_free (simplify cnf l) := by
  intro c' hc' h0
  rcases mem_of_mem_simplify hc' h0 with ⟨⟨c, hc, h0c⟩, _, _⟩
  exact h c hc h0c

end resolution

namespace comparison

theorem mem_lits_of_c {cnf : List (Finset ℤ)} {x : ℤ} :
    x ∈ lits_of cnf ↔ ∃ c ∈ cnf, x ∈ c := by
  induction cnf with
  | nil => simp [lits_of]
  | cons c rest ih =>
    have h : lits_of (c :: rest) = c ∪ lits_of rest := rfl
    rw [h]
    simp [Finset.mem_union, ih]

theorem mem_vars_of_c {cnf : List (Finset ℤ)} {v : ℤ} :
    v ∈ vars_of cnf ↔ ∃ l, (∃ c ∈ cnf, l ∈ c) ∧ |l| = v := by
  simp [vars_of, mem_lits_of_c]

theorem var_mem_vars_of_c {cnf : List (Finset ℤ)} {c : Finset ℤ} {l : ℤ}
    (hc : c ∈ cnf) (hl : l ∈ c) : |l| ∈ vars_of cnf :=
  mem_vars_of_c.2 ⟨l, ⟨c, hc, hl⟩, rfl⟩

theorem first_lit_mem {c : Finset ℤ} (h : c.Nonempty) : first_lit c ∈ c := by
  rw [first_lit, dif_pos h]
  exact c.min'_mem h

theorem mem_dp_next {cnf : List (Finset ℤ)} {v : ℤ} {c' : Finset ℤ} :
    c' ∈ dp_next cnf v ↔
      (c' ∈ cnf ∧ v ∉ c' ∧ -v ∉ c') ∨
      (∃ c1 ∈ cnf, ∃ c2 ∈ cnf, v ∈ c1 ∧ -v ∈ c2 ∧ c' = (c1 ∪ c2) \ {v, -v}) := by
  simp only [dp_next, List.mem_append, List.mem_filter, List.mem_flatMap, List.mem_map,
    decide_eq_true_eq]
  constructor
  · rintro (⟨hc, hv⟩ | ⟨c1, ⟨h1, hv1⟩, c2, ⟨h2, hv2⟩, rfl⟩)
    · exact Or.inl ⟨hc, hv⟩
    · exact Or.inr ⟨c1, h1, c2, h2, hv1, hv2, rfl⟩
  · rintro (⟨hc, hv⟩ | ⟨c1, h1, c2, h2, hv1, hv2, rfl⟩)
    · exact Or.inl ⟨hc, hv⟩
    · exact Or.inr ⟨c1, ⟨h1, hv1⟩, c2, ⟨h2, hv2⟩, rfl⟩

theorem vars_of_dp_next_subset {cnf : List (Finset ℤ)} {v : ℤ} (hv : 0 ≤ v) :
    vars_of (dp_next cnf v) ⊆ (vars_of cnf).erase v := by
  intro w hw
  rcases mem_vars_of_c.1 hw with ⟨x, ⟨c', hc', hx⟩, rfl⟩
  have hxv : x ≠ v ∧ x ≠ -v ∧ ∃ c ∈ cnf, x ∈ c := by
    rcases mem_dp_next.1 hc' with ⟨hc, h1, h2⟩ | ⟨c1, h1, c2, h2, _, _, rfl⟩
    · exact ⟨fun h => h1 (h ▸ hx), fun h => h2 (h ▸ hx), c', hc, hx⟩
    · rcases Finset.mem_sdiff.1 hx with ⟨hx12, hxne⟩
      simp only [Finset.mem_insert, Finset.mem_singleton] at hxne
      push_neg at hxne
      rcases Finset.mem_union.1 hx12 with h | h
      · exact ⟨hxne.1, hxne.2, c1, h1, h⟩
      · exact ⟨hxne.1, hxne.2, c2, h2, h⟩
  rcases hxv with ⟨h1, h2, c, hc, hxc⟩
  refine Finset.mem_erase.2 ⟨?_, var_mem_vars_of_c hc hxc⟩
  intro h
  rcases (abs_eq hv).1 h with h' | h'
  · exact h1 h'
  · exact h2 h'

theorem dp_pick_nonneg (cnf : List (Finset ℤ)) : 0 ≤ dp_pick cnf :=
  abs_nonneg _

theorem dp_pick_mem {cnf : List (Finset ℤ)} (hne : cnf ≠ [])
    (hno : cnf.any (fun c => c.card == 0) = false) : dp_pick cnf ∈ vars_of cnf := by
  match cnf, hne with
  | c :: rest, _ =>
    have hhead : c ∈ c :: rest := List.mem_cons_self _ _
    have hcard : c.card ≠ 0 := by
      intro h
      have h1 : ((c :: rest).any (fun c => c.card == 0)) = true := by
        simp [List.any_cons, h]
      rw [hno] at h1
      exact Bool.false_ne_true h1
    have hne' : c.Nonempty := Finset.card_ne_zero.1 hcard
    have hpick : dp_pick (c :: rest) = |first_lit c| := rfl
    rw [hpick]
    exact var_mem_vars_of_c hhead (first_lit_mem hne')

theorem dp_fuel_sufficient :
    ∀ n cnf, (vars_of cnf).card < n → ∃ b, dp_solver_fuel n cnf = some b := by
  intro n
  induction n with
  | zero => intro cnf h; omega
  | succ n ih =>
    intro cnf h
    by_cases h1 : cnf = []
    · exact ⟨true, by simp [dp_solver_fuel, h1]⟩
    · by_cases h2 : cnf.any (fun c => c.card == 0) = true
      · exact ⟨false, by simp [dp_solver_fuel, h1, h2]⟩
      · have h2' : cnf.any (fun c => c.card == 0) = false := Bool.eq_false_iff.mpr h2
        have hmem := dp_pick_mem h1 h2'
        have hsub : vars_of (dp_next cnf (dp_pick cnf)) ⊆ (vars_of cnf).erase (dp_pick cnf) :=
          vars_of_dp_next_subset (dp_pick_nonneg cnf)
        have hcard : (vars_of (dp_next cnf (dp_pick cnf))).card < n := by
          have hle := Finset.card_le_card hsub
          have herase : ((vars_of cnf).erase (dp_pick cnf)).card < (vars_of cnf).card :=
            Finset.card_erase_lt_of_mem hmem
          omega
        rcases ih _ hcard with ⟨b, hb⟩
        exact ⟨b, by simp [dp_solver_fuel, h1, h2, hb]⟩

theorem dp_solver_isSome_c (cnf : List (Finset ℤ)) : ∃ b, dp_solver cnf = some b :=
  dp_fuel_sufficient _ cnf (Nat.lt_succ_self _)

end comparison

namespace resolution

theorem dp_recursive_sufficient :
    ∀ n cnf, (vars_of cnf).card < n → ∃ b, dp_recursive n cnf = some b := by
  intro n
  induction n with
  | zero => intro cnf h; omega
  | succ n ih =>
    intro cnf h
    by_cases hemp : [] ∈ cnf
    · exact ⟨false, by simp [dp_recursive, hemp]⟩
    · match cnf, hemp with
      | [], _ => exact ⟨true, by simp [dp_recursive]⟩
      | [] :: rest, hemp => exact absurd (List.mem_cons_self _ _) hemp
      | (l :: c0) :: rest, hemp =>
        have hlmem : |l| ∈ vars_of ((l :: c0) :: rest) :=
          var_mem_vars_of (List.mem_cons_self _ _) (List.mem_cons_self _ _)
        have hcard : ∀ t : ℤ, |t| = |l| →
            (vars_of (simplify ((l :: c0) :: rest) t)).card < n := by
          intro t ht
          have hsub := vars_of_simplify_subset ((l :: c0) :: rest) t
          have hle := Finset.card_le_card hsub
          have herase : ((vars_of ((l :: c0) :: rest)).erase |t|).card <
              (vars_of ((l :: c0) :: rest)).card := by
            rw [ht]
            exact Finset.card_erase_lt_of_mem hlmem
          omega
        rcases ih _ (hcard |l| (abs_abs l)) with ⟨b1, hb1⟩
        rcases ih _ (hcard (-|l|) (by rw [abs_neg, abs_abs])) with ⟨b2, hb2⟩
        cases b1 with
        | true => exact ⟨true, by simp [dp_recursive, hemp, hb1]⟩
        | false => exact ⟨b2, by simp [dp_recursive, hemp, hb1, hb2]⟩

theorem dp_solver_isSome (cnf : CNFFormula) : ∃ b, dp_solver cnf = some b :=
  dp_recursive_sufficient _ cnf (Nat.lt_succ_self _)

end resolution

namespace comparison

theorem mem_all_resolvents_c {S : Finset (Finset ℤ)} {r : Finset ℤ} :
    r ∈ all_resolvents S ↔
      ∃ ci ∈ S, ∃ cj ∈ S, cj ≠ ci ∧ ∃ l ∈ ci, -l ∈ cj ∧ r = (ci ∪ cj) \ {l, -l} := by
  simp only [all_resolvents, Finset.mem_biUnion, Finset.mem_erase, Finset.mem_image,
    Finset.mem_filter]
  constructor
  · rintro ⟨ci, hci, cj, ⟨hne, hcj⟩, l, ⟨hl, hnl⟩, rfl⟩
    exact ⟨ci, hci, cj, hcj, hne, l, hl, hnl, rfl⟩
  · rintro ⟨ci, hci, cj, hcj, hne, l, hl, hnl, rfl⟩
    exact ⟨ci, hci, cj, ⟨hne, hcj⟩, l, ⟨hl, hnl⟩, rfl⟩

theorem all_resolvents_subset_c {S : Finset (Finset ℤ)} {L : Finset ℤ}
    (h : ∀ c ∈ S, c ⊆ L) : ∀ r ∈ all_resolvents S, r ⊆ L := by
  intro r hr
  rcases mem_all_resolvents_c.1 hr with ⟨ci, hci, cj, hcj, _, l, _, _, rfl⟩
  intro x hx
  rcases Finset.mem_union.1 (Finset.mem_sdiff.1 hx).1 with hx' | hx'
  · exact h ci hci hx'
  · exact h cj hcj hx'

theorem card_le_of_clauses_subset {S : Finset (Finset ℤ)} {L : Finset ℤ}
    (h : ∀ c ∈ S, c ⊆ L) : S.card ≤ 2 ^ L.card := by
  have hS : S ⊆ L.powerset := fun c hc => Finset.mem_powerset.2 (h c hc)
  calc S.card ≤ L.powerset.card := Finset.card_le_card hS
    _ = 2 ^ L.card := Finset.card_powerset L

theorem resolution_loop_sufficient_c (L : Finset ℤ) :
    ∀ n S, (∀ c ∈ S, c ⊆ L) → 2 ^ L.card < S.card + n →
      ∃ b, resolution_loop n S = some b := by
  intro n
  induction n with
  | zero =>
    intro S hS hn
    have := card_le_of_clauses_subset hS
    omega
  | succ n ih =>
    intro S hS hn
    by_cases h1 : ∅ ∈ all_resolvents S
    · exact ⟨false, by simp [resolution_loop, h1]⟩
    · by_cases h2 : all_resolvents S ⊆ S
      · exact ⟨true, by simp [resolution_loop, h1, h2]⟩
      · have hS' : ∀ c ∈ S ∪ all_resolvents S, c ⊆ L := by
          intro c hc
          rcases Finset.mem_union.1 hc with hc | hc
          · exact hS c hc
          · exact all_resolvents_subset_c hS c hc
        have hgrow : S.card < (S ∪ all_resolvents S).card := by
          refine Finset.card_lt_card ⟨Finset.subset_union_left, ?_⟩
          intro hsub
          exact h2 fun r hr => hsub (Finset.mem_union_right _ hr)
        rcases ih (S ∪ all_resolvents S) hS' (by omega) with ⟨b, hb⟩
        exact ⟨b, by simp [resolution_loop, h1, h2, hb]⟩

theorem resolution_solver_isSome_c (cnf : List (Finset ℤ)) :
    ∃ b, resolution_solver cnf = some b := by
  refine resolution_loop_sufficient_c (lits_of cnf) _ cnf.toFinset ?_ ?_
  · intro c hc x hx
    exact mem_lits_of_c.2 ⟨c, List.mem_toFinset.1 hc, hx⟩
  · omega

end comparison

namespace resolution

theorem mem_resolve {ci cj r : Finset ℤ} :
    r ∈ resolve ci cj ↔ ∃ l ∈ ci, -l ∈ cj ∧ r = (ci ∪ cj) \ {l, -l} := by
  simp only [resolve, Finset.mem_image, Finset.mem_filter]
  constructor
  · rintro ⟨l, ⟨hl, hnl⟩, rfl⟩
    exact ⟨l, hl, hnl, rfl⟩
  · rintro ⟨l, hl, hnl, rfl⟩
    exact ⟨l, ⟨hl, hnl⟩, rfl⟩

theorem mem_all_resolvents {S : Finset (Finset ℤ)} {r : Finset ℤ} :
    r ∈ all_resolvents S ↔
      ∃ ci ∈ S, ∃ cj ∈ S, cj ≠ ci ∧ r ∈ resolve ci cj := by
  simp only [all_resolvents, Finset.mem_biUnion, Finset.mem_erase]
  constructor
  · rintro ⟨ci, hci, cj, ⟨hne, hcj⟩, hr⟩
    exact ⟨ci, hci, cj, hcj, hne, hr⟩
  · rintro ⟨ci, hci, cj, hcj, hne, hr⟩
    exact ⟨ci, hci, cj, ⟨hne, hcj⟩, hr⟩

theorem all_resolvents_subset {S : Finset (Finset ℤ)} {L : Finset ℤ}
    (h : ∀ c ∈ S, c ⊆ L) : ∀ r ∈ all_resolvents S, r ⊆ L := by
  intro r hr
  rcases mem_all_resolvents.1 hr with ⟨ci, hci, cj, hcj, _, hr'⟩
  rcases mem_resolve.1 hr' with ⟨l, _, _, rfl⟩
  intro x hx
  rcases Finset.mem_union.1 (Finset.mem_sdiff.1 hx).1 with hx' | hx'
  · exact h ci hci hx'
  · exact h cj hcj hx'

theorem resolution_loop_sufficient (L : Finset ℤ) :
    ∀ n S W, (∀ c ∈ S, c ⊆ L) → (∀ c ∈ W, c ⊆ L) → 2 ^ L.card < S.card + n →
      ∃ b, resolution_loop n S W = some b := by
  intro n
  induction n with
  | zero =>
    intro S W hS _ hn
    have := comparison.card_le_of_clauses_subset hS
    omega
  | succ n ih =>
    intro S W hS hW hn
    by_cases h1 : ∅ ∈ all_resolvents S
    · exact ⟨false, by simp [resolution_loop, h1]⟩
    · by_cases h2 : W ∪ all_resolvents S ⊆ S
      · exact ⟨true, by simp [resolution_loop, h1, h2]⟩
      · have hW' : ∀ c ∈ W ∪ all_resolvents S, c ⊆ L := by
          intro c hc
          rcases Finset.mem_union.1 hc with hc | hc
          · exact hW c hc
          · exact all_resolvents_subset hS c hc
        have hS' : ∀ c ∈ S ∪ (W ∪ all_resolvents S), c ⊆ L := by
          intro c hc
          rcases Finset.mem_union.1 hc with hc | hc
          · exact hS c hc
          · exact hW' c hc
        have hgrow : S.card < (S ∪ (W ∪ all_resolvents S)).card := by
          refine Finset.card_lt_card ⟨Finset.subset_union_left, ?_⟩
          intro hsub
          exact h2 fun r hr => hsub (Finset.mem_union_right _ hr)
        rcases ih (S ∪ (W ∪ all_resolvents S)) (W ∪ all_resolvents S) hS' hW' (by omega)
          with ⟨b, hb⟩
        exact ⟨b, by simp [resolution_loop, h1, h2, hb]⟩

theorem resolution_solver_isSome (cnf : CNFFormula) :
    ∃ b, resolution_solver cnf = some b := by
  refine resolution_loop_sufficient (lits_of cnf) _ ((cnf.map List.toFinset).toFinset) ∅ ?_ ?_ ?_
  · intro c hc x hx
    rcases List.mem_map.1 (List.mem_toFinset.1 hc) with ⟨c0, hc0, rfl⟩
    exact mem_lits_of.2 ⟨c0, hc0, List.mem_toFinset.1 hx⟩
  · intro c hc
    exact absurd hc (Finset.not_mem_empty c)
  · omega

end resolution

theorem litVal_neg {σ : ℤ → Bool} {l : ℤ} (hl : l ≠ 0) : litVal σ (-l) = !litVal σ l := by
  rcases lt_trichotomy 0 l with h | h | h
  · have h' : ¬0 < -l := by omega
    simp [litVal, h, h']
  · exact absurd h.symm hl
  · have h' : 0 < -l := by omega
    have h'' : ¬0 < l := by omega
    simp [litVal, h', h'']

theorem litVal_update_self {σ : ℤ → Bool} {l : ℤ} (hl : l ≠ 0) :
    litVal (Function.update σ |l| (decide (0 < l))) l = true := by
  by_cases h : 0 < l
  · have habs : |l| = l := abs_of_pos h
    have hupd : Function.update σ |l| true l = true := by
      rw [habs]
      exact Function.update_same _ _ _
    simp [litVal, h, hupd]
  · have hneg : l < 0 := by omega
    have habs : |l| = -l := abs_of_neg hneg
    have hupd : Function.update σ |l| false (-l) = false := by
      rw [habs]
      exact Function.update_same _ _ _
    simp [litVal, h, hupd]

theorem litVal_update_other {σ : ℤ → Bool} {l m : ℤ} {b : Bool} (h : |m| ≠ |l|) :
    litVal (Function.update σ |l| b) m = litVal σ m := by
  by_cases hm : 0 < m
  · have hne : m ≠ |l| := by
      intro he
      exact h ((abs_of_pos hm).trans he)
    simp [litVal, hm, Function.update_noteq hne]
  · have hne : -m ≠ |l| := by
      intro he
      exact h ((abs_of_nonpos (by omega)).trans he)
    simp [litVal, hm, Function.update_noteq hne]

namespace resolution

theorem cnfSat_simplify_of {σ : ℤ → Bool} {cnf : CNFFormula} {l : ℤ}
    (hl : litVal σ l = true) (h : cnfSat σ cnf) : cnfSat σ (simplify cnf l) := by
  intro c' hc'
  rcases mem_simplify.1 hc' with ⟨c, hc, hlc, rfl⟩
  rcases h c hc with ⟨m, hm, hv⟩
  by_cases hml : m = -l
  · subst hml
    by_cases h0 : l = 0
    · subst h0
      exact absurd (by simpa using hm) hlc
    · rw [litVal_neg h0, hl] at hv
      simp at hv
  · exact ⟨m, List.mem_filter.2 ⟨hm, by simpa using hml⟩, hv⟩

theorem cnfSat_of_simplify {σ : ℤ → Bool} {cnf : CNFFormula} {l : ℤ} (hl : l ≠ 0)
    (h : cnfSat σ (simplify cnf l)) :
    cnfSat (Function.update σ |l| (decide (0 < l))) cnf := by
  intro c hc
  by_cases hlc : l ∈ c
  · exact ⟨l, hlc, litVal_update_self hl⟩
  · have hc' : c.filter (fun x => x ≠ -l) ∈ simplify cnf l :=
      mem_simplify.2 ⟨c, hc, hlc, rfl⟩
    rcases h _ hc' with ⟨m, hm, hv⟩
    rcases List.mem_filter.1 hm with ⟨hmc, hmne⟩
    have hmne' : m ≠ -l := by simpa using hmne
    have hmne'' : m ≠ l := fun he => hlc (he ▸ hmc)
    have habs : |m| ≠ |l| := by
      intro he
      rcases abs_eq_abs.1 he with h' | h'
      · exact hmne'' h'
      · exact hmne' h'
    exact ⟨m, hmc, (litVal_update_other habs).trans hv⟩

theorem satisfiable_split {cnf : CNFFormula} {l : ℤ} (hl : l ≠ 0) :
    satisfiable cnf ↔ satisfiable (simplify cnf l) ∨ satisfiable (simplify cnf (-l)) := by
  constructor
  · rintro ⟨σ, h⟩
    cases hval : litVal σ l with
    | true => exact Or.inl ⟨σ, cnfSat_simplify_of hval h⟩
    | false =>
      have : litVal σ (-l) = true := by rw [litVal_neg hl, hval]; rfl
      exact Or.inr ⟨σ, cnfSat_simplify_of this h⟩
  · rintro (⟨σ, h⟩ | ⟨σ, h⟩)
    · exact ⟨_, cnfSat_of_simplify hl h⟩
    · exact ⟨_, cnfSat_of_simplify (by omega) h⟩

theorem satisfiable_simplify_unit {cnf : CNFFormula} {l : ℤ} (hl : l ≠ 0)
    (hu : [l] ∈ cnf) : satisfiable (simplify cnf l) ↔ satisfiable cnf := by
  constructor
  · rintro ⟨σ, h⟩
    exact ⟨_, cnfSat_of_simplify hl h⟩
  · rintro ⟨σ, h⟩
    rcases h [l] hu with ⟨m, hm, hv⟩
    rcases List.mem_singleton.1 hm with rfl
    exact ⟨σ, cnfSat_simplify_of hv h⟩

theorem satisfiable_simplify_pure {cnf : CNFFormula} {l : ℤ} (hl : l ≠ 0)
    (hp : -l ∉ lits_of cnf) : satisfiable (simplify cnf l) ↔ satisfiable cnf := by
  constructor
  · rintro ⟨σ, h⟩
    exact ⟨_, cnfSat_of_simplify hl h⟩
  · rintro ⟨σ, h⟩
    set σ' := Function.update σ |l| (decide (0 < l)) with hσ'
    have h' : cnfSat σ' cnf := by
      intro c hc
      rcases h c hc with ⟨m, hm, hv⟩
      by_cases habs : |m| = |l|
      · rcases abs_eq_abs.1 habs with rfl | rfl
        · exact ⟨m, hm, litVal_update_self hl⟩
        · exact absurd (mem_lits_of.2 ⟨c, hc, hm⟩) hp
      · exact ⟨m, hm, (litVal_update_other habs).trans hv⟩
    exact ⟨σ', cnfSat_simplify_of (litVal_update_self hl) h'⟩

theorem not_satisfiable_of_empty_mem {cnf : CNFFormula} (h : [] ∈ cnf) :
    ¬ satisfiable cnf := by
  rintro ⟨σ, hσ⟩
  rcases hσ [] h with ⟨m, hm, _⟩
  exact absurd hm (List.not_mem_nil m)

theorem satisfiable_nil : satisfiable [] :=
  ⟨fun _ => true, fun c hc => absurd hc (List.not_mem_nil c)⟩

end resolution

namespace resolution

theorem vars_of_subset_of_forall_mem {F' F : CNFFormula} (h : ∀ c ∈ F', c ∈ F) :
    vars_of F' ⊆ vars_of F := by
  intro v hv
  rcases mem_vars_of.1 hv with ⟨l, ⟨c, hc, hl⟩, rfl⟩
  exact var_mem_vars_of (h c hc) hl

theorem unit_prop_eq_of_no_units {n : ℕ} {cnf : CNFFormula}
    (hf : cnf.filter (fun c => c.length == 1) = []) :
    unit_prop (n+1) cnf = some (some cnf) := by
  simp only [unit_prop, hf]

theorem unit_prop_eq_of_unit {n : ℕ} {cnf : CNFFormula} {l : ℤ} {tail : Clause}
    {rest : List Clause}
    (hf : cnf.filter (fun c => c.length == 1) = (l :: tail) :: rest) :
    unit_prop (n+1) cnf =
      if [] ∈ simplify cnf l then some none else unit_prop n (simplify cnf l) := by
  simp only [unit_prop, hf]

theorem unit_filter_shape {cnf : CNFFormula} {u : Clause} {us : List Clause}
    (hf : cnf.filter (fun c => c.length == 1) = u :: us) :
    ∃ l, u = [l] ∧ [l] ∈ cnf := by
  have hu : u ∈ cnf.filter (fun c => c.length == 1) := by
    rw [hf]
    exact List.mem_cons_self _ _
  rcases List.mem_filter.1 hu with ⟨humem, hlen⟩
  have hlen' : u.length = 1 := by simpa using hlen
  rcases u with _ | ⟨l, tail⟩
  · simp at hlen'
  · have htail : tail = [] := by
      simp only [List.length_cons] at hlen'
      exact List.length_eq_zero.1 (by omega)
    subst htail
    exact ⟨l, rfl, humem⟩

theorem unit_prop_spec :
    ∀ n cnf, (vars_of cnf).card < n → [] ∉ cnf →
      (unit_prop n cnf = some none ∧ (zero_free cnf → ¬ satisfiable cnf)) ∨
      (∃ cnf', unit_prop n cnf = some (some cnf') ∧ [] ∉ cnf' ∧
        vars_of cnf' ⊆ vars_of cnf ∧
        (zero_free cnf → zero_free cnf' ∧ (satisfiable cnf' ↔ satisfiable cnf))) := by
  intro n
  induction n with
  | zero => intro cnf h; omega
  | succ n ih =>
    intro cnf hcard hemp
    cases hf : cnf.filter (fun c => c.length == 1) with
    | nil =>
      right
      exact ⟨cnf, unit_prop_eq_of_no_units hf, hemp, Finset.Subset.refl _,
        fun hz => ⟨hz, Iff.rfl⟩⟩
    | cons u us =>
      rcases unit_filter_shape hf with ⟨l, rfl, hlmem⟩
      have heq : unit_prop (n+1) cnf =
          if [] ∈ simplify cnf l then some none else unit_prop n (simplify cnf l) :=
        unit_prop_eq_of_unit hf
      by_cases hne : [] ∈ simplify cnf l
      · left
        refine ⟨by rw [heq, if_pos hne], ?_⟩
        intro hz
        have hl0 : l ≠ 0 := fun h0 => hz [l] hlmem (by simp [h0])
        rw [← satisfiable_simplify_unit hl0 hlmem]
        exact not_satisfiable_of_empty_mem hne
      · have hsub := vars_of_simplify_subset cnf l
        have hlv : |l| ∈ vars_of cnf := var_mem_vars_of hlmem (List.mem_cons_self _ _)
        have hcard2 : (vars_of (simplify cnf l)).card < n := by
          have h1 := Finset.card_le_card hsub
          have h2 := Finset.card_erase_lt_of_mem hlv
          omega
        rcases ih (simplify cnf l) hcard2 hne with ⟨hup, hcond⟩ |
          ⟨cnf', hup, hemp', hsub', hcond⟩
        · left
          refine ⟨by rw [heq, if_neg hne]; exact hup, ?_⟩
          intro hz
          have hl0 : l ≠ 0 := fun h0 => hz [l] hlmem (by simp [h0])
          rw [← satisfiable_simplify_unit hl0 hlmem]
          exact hcond (zero_free_simplify hz)
        · right
          refine ⟨cnf', by rw [heq, if_neg hne]; exact hup, hemp',
            hsub'.trans (hsub.trans (Finset.erase_subset _ _)), ?_⟩
          intro hz
          have hl0 : l ≠ 0 := fun h0 => hz [l] hlmem (by simp [h0])
          rcases hcond (zero_free_simplify hz) with ⟨hz', hiff⟩
          exact ⟨hz', hiff.trans (satisfiable_simplify_unit hl0 hlmem)⟩

theorem pure_fold_spec (cnf0 : CNFFormula) :
    ∀ (todo : List ℤ) (acc : CNFFormula),
      (∀ c ∈ acc, c ∈ cnf0) →
      (∀ l ∈ todo, l ∈ cnf0.flatten) →
      (∀ c ∈ todo.foldl
          (fun acc lit => if -lit ∈ cnf0.flatten.dedup then acc else simplify acc lit) acc,
        c ∈ acc) ∧
      (zero_free cnf0 →
        (satisfiable (todo.foldl
          (fun acc lit => if -lit ∈ cnf0.flatten.dedup then acc else simplify acc lit) acc) ↔
        satisfiable acc)) := by
  intro todo
  induction todo with
  | nil =>
    intro acc hacc htodo
    exact ⟨fun c hc => hc, fun _ => Iff.rfl⟩
  | cons t ts ih =>
    intro acc hacc htodo
    by_cases ht : -t ∈ cnf0.flatten.dedup
    · have heq : (t :: ts).foldl
          (fun acc lit => if -lit ∈ cnf0.flatten.dedup then acc else simplify acc lit) acc =
          ts.foldl
          (fun acc lit => if -lit ∈ cnf0.flatten.dedup then acc else simplify acc lit) acc := by
        rw [List.foldl_cons, if_pos ht]
      rcases ih acc hacc (fun l hl => htodo l (List.mem_cons_of_mem _ hl)) with ⟨hm, hs⟩
      rw [heq]
      exact ⟨hm, hs⟩
    · have htacc : -t ∉ lits_of acc := by
        intro hmem
        rcases mem_lits_of.1 hmem with ⟨c, hc, hlc⟩
        exact ht (List.mem_dedup.2 (List.mem_flatten.2 ⟨c, hacc c hc, hlc⟩))
      have hmemsimp : ∀ c ∈ simplify acc t, c ∈ acc := by
        intro c' hc'
        rcases mem_simplify.1 hc' with ⟨c, hc, hlc, rfl⟩
        have hfil : c.filter (fun x => x ≠ -t) = c := by
          apply List.filter_eq_self.2
          intro x hx
          simp only [decide_eq_true_eq]
          intro hxe
          exact htacc (mem_lits_of.2 ⟨c, hc, hxe ▸ hx⟩)
        rw [hfil]
        exact hc
      have hacc' : ∀ c ∈ simplify acc t, c ∈ cnf0 := fun c hc => hacc c (hmemsimp c hc)
      rcases ih (simplify acc t) hacc' (fun l hl => htodo l (List.mem_cons_of_mem _ hl))
        with ⟨hm, hs⟩
      have heq : (t :: ts).foldl
          (fun acc lit => if -lit ∈ cnf0.flatten.dedup then acc else simplify acc lit) acc =
          ts.foldl
          (fun acc lit => if -lit ∈ cnf0.flatten.dedup then acc else simplify acc lit)
          (simplify acc t) := by
        rw [List.foldl_cons, if_neg ht]
      rw [heq]
      constructor
      · intro c hc
        exact hmemsimp _ (hm c hc)
      · intro hz
        have ht0 : t ≠ 0 := by
          have htfl := htodo t (List.mem_cons_self _ _)
          rcases List.mem_flatten.1 htfl with ⟨c, hc, hlc⟩
          exact fun h0 => hz c hc (h0 ▸ hlc)
        exact (hs hz).trans (satisfiable_simplify_pure ht0 htacc)

theorem pure_elim_spec (cnf : CNFFormula) :
    (∀ c ∈ pure_elim cnf, c ∈ cnf) ∧
    (zero_free cnf → (satisfiable (pure_elim cnf) ↔ satisfiable cnf)) := by
  have he : pure_elim cnf = (cnf.flatten.dedup).foldl
      (fun acc lit => if -lit ∈ cnf.flatten.dedup then acc else simplify acc lit) cnf := rfl
  rw [he]
  exact pure_fold_spec cnf cnf.flatten.dedup cnf (fun c hc => hc)
    (fun l hl => List.mem_dedup.1 hl)

end resolution

namespace resolution

theorem dp_rec_correct :
    ∀ n cnf, (vars_of cnf).card < n → zero_free cnf →
      ∃ b, dp_recursive n cnf = some b ∧ (b = true ↔ satisfiable cnf) := by
  intro n
  induction n with
  | zero => intro cnf h; omega
  | succ n ih =>
    intro cnf hcard hz
    by_cases hemp : [] ∈ cnf
    · refine ⟨false, by simp [dp_recursive, hemp], ?_⟩
      simp [not_satisfiable_of_empty_mem hemp]
    · match cnf, hemp with
      | [], _ => exact ⟨true, by simp [dp_recursive], by simp [satisfiable_nil]⟩
      | [] :: rest, hemp => exact absurd (List.mem_cons_self _ _) hemp
      | (l :: c0) :: rest, hemp =>
        have hl0 : l ≠ 0 := fun h0 =>
          hz _ (List.mem_cons_self _ _) (by simp [h0])
        have habs0 : |l| ≠ 0 := by simpa using hl0
        have hlmem : |l| ∈ vars_of ((l :: c0) :: rest) :=
          var_mem_vars_of (List.mem_cons_self _ _) (List.mem_cons_self _ _)
        have hkey : ∀ t : ℤ, |t| = |l| →
            (vars_of (simplify ((l :: c0) :: rest) t)).card < n := by
          intro t ht
          have ha := Finset.card_le_card (vars_of_simplify_subset ((l :: c0) :: rest) t)
          have hb : ((vars_of ((l :: c0) :: rest)).erase |t|).card <
              (vars_of ((l :: c0) :: rest)).card :=
            Finset.card_erase_lt_of_mem (by rw [ht]; exact hlmem)
          omega
        rcases ih _ (hkey |l| (abs_abs l)) (zero_free_simplify hz) with ⟨b1, hb1, hiff1⟩
        rcases ih _ (hkey (-|l|) (by rw [abs_neg, abs_abs])) (zero_free_simplify hz)
          with ⟨b2, hb2, hiff2⟩
        have hsplit : satisfiable ((l :: c0) :: rest) ↔
            satisfiable (simplify ((l :: c0) :: rest) |l|) ∨
            satisfiable (simplify ((l :: c0) :: rest) (-|l|)) :=
          satisfiable_split habs0
        cases b1 with
        | true =>
          refine ⟨true, by simp [dp_recursive, hemp, hb1], ?_⟩
          simp only [true_iff]
          exact hsplit.2 (Or.inl (hiff1.1 rfl))
        | false =>
          refine ⟨b2, by simp [dp_recursive, hemp, hb1, hb2], ?_⟩
          constructor
          · intro hb
            exact hsplit.2 (Or.inr (hiff2.1 hb))
          · intro hsat
            rcases hsplit.1 hsat with hs | hs
            · simpa using hiff1.2 hs
            · exact hiff2.2 hs

theorem dpll_rec_correct :
    ∀ n cnf, (vars_of cnf).card < n → zero_free cnf →
      ∃ b, dpll_recursive n cnf = some b ∧ (b = true ↔ satisfiable cnf) := by
  intro n
  induction n with
  | zero => intro cnf h; omega
  | succ n ih =>
    intro cnf hcard hz
    by_cases h1 : [] ∈ cnf
    · refine ⟨false, by simp [dpll_recursive, h1], ?_⟩
      simp [not_satisfiable_of_empty_mem h1]
    · by_cases h2 : cnf = []
      · subst h2
        exact ⟨true, by simp [dpll_recursive], by simp [satisfiable_nil]⟩
      · rcases unit_prop_spec ((vars_of cnf).card + 1) cnf (Nat.lt_succ_self _) h1 with
          ⟨hup, hcond⟩ | ⟨cnf1, hup, hemp1, hsub1, hcond⟩
        · refine ⟨false, ?_, ?_⟩
          · simp only [dpll_recursive, if_neg h1, if_neg h2, hup]
          · simp [hcond hz]
        · rcases hcond hz with ⟨hz1, hiff1⟩
          rcases pure_elim_spec cnf1 with ⟨hmem2, hsat2⟩
          have hiff2 : satisfiable (pure_elim cnf1) ↔ satisfiable cnf :=
            (hsat2 hz1).trans hiff1
          have hz2 : zero_free (pure_elim cnf1) := fun c hc => hz1 c (hmem2 c hc)
          have hemp2 : [] ∉ pure_elim cnf1 := fun h => hemp1 (hmem2 [] h)
          have hsub2 : vars_of (pure_elim cnf1) ⊆ vars_of cnf :=
            (vars_of_subset_of_forall_mem hmem2).trans hsub1
          by_cases h3 : pure_elim cnf1 = []
          · refine ⟨true, ?_, ?_⟩
            · simp only [dpll_recursive, if_neg h1, if_neg h2, hup]
              rw [h3]
              simp
            · simp only [true_iff]
              exact hiff2.1 (h3 ▸ satisfiable_nil)
          · obtain ⟨c, rest, hshape⟩ : ∃ c rest, pure_elim cnf1 = c :: rest := by
              rcases hpe : pure_elim cnf1 with _ | ⟨c, rest⟩
              · exact absurd hpe h3
              · exact ⟨c, rest, rfl⟩
            rcases c with _ | ⟨l, c0⟩
            · exact absurd (hshape ▸ List.mem_cons_self [] rest) hemp2
            · rw [hshape] at hz2 hemp2 hsub2 hiff2
              have hl0 : l ≠ 0 := fun h0 =>
                hz2 _ (List.mem_cons_self _ _) (by simp [h0])
              have habs0 : |l| ≠ 0 := by simpa using hl0
              have hlv : |l| ∈ vars_of ((l :: c0) :: rest) :=
                var_mem_vars_of (List.mem_cons_self _ _) (List.mem_cons_self _ _)
              have hkey : ∀ t : ℤ, |t| = |l| →
                  (vars_of (simplify ((l :: c0) :: rest) t)).card < n := by
                intro t ht
                have ha := Finset.card_le_card
                  (vars_of_simplify_subset ((l :: c0) :: rest) t)
                have hb : ((vars_of ((l :: c0) :: rest)).erase |t|).card <
                    (vars_of ((l :: c0) :: rest)).card :=
                  Finset.card_erase_lt_of_mem (by rw [ht]; exact hlv)
                have hc := Finset.card_le_card hsub2
                omega
              rcases ih _ (hkey |l| (abs_abs l)) (zero_free_simplify hz2)
                with ⟨b1, hb1, hiffb1⟩
              rcases ih _ (hkey (-|l|) (by rw [abs_neg, abs_abs])) (zero_free_simplify hz2)
                with ⟨b2, hb2, hiffb2⟩
              have hsplit : satisfiable ((l :: c0) :: rest) ↔
            satisfiable (simplify ((l :: c0) :: rest) |l|) ∨
            satisfiable (simplify ((l :: c0) :: rest) (-|l|)) :=
          satisfiable_split habs0
              cases b1 with
              | true =>
                refine ⟨true, ?_, ?_⟩
                · simp only [dpll_recursive, if_neg h1, if_neg h2, hup]
                  rw [hshape]
                  simp [hb1]
                · simp only [true_iff]
                  exact hiff2.1 (hsplit.2 (Or.inl (hiffb1.1 rfl)))
              | false =>
                refine ⟨b2, ?_, ?_⟩
                · simp only [dpll_recursive, if_neg h1, if_neg h2, hup]
                  rw [hshape]
                  simp [hb1, hb2]
                · constructor
                  · intro hb
                    exact hiff2.1 (hsplit.2 (Or.inr (hiffb2.1 hb)))
                  · intro hsat
                    rcases hsplit.1 (hiff2.2 hsat) with hs | hs
                    · simpa using hiffb1.2 hs
                    · exact hiffb2.2 hs

end resolution

namespace comparison

theorem mem_reduce {cnf : List (Finset ℤ)} {l : ℤ} {c' : Finset ℤ} :
    c' ∈ reduce cnf l ↔
      ∃ c ∈ cnf, l ∉ c ∧ c' = (if -l ∈ c then c.erase (-l) else c) := by
  simp only [reduce, List.mem_filterMap]
  constructor
  · rintro ⟨c, hc, hf⟩
    by_cases h1 : l ∈ c
    · rw [if_pos h1] at hf
      exact absurd hf (by simp)
    · by_cases h2 : -l ∈ c
      · rw [if_neg h1, if_pos h2] at hf
        refine ⟨c, hc, h1, ?_⟩
        rw [if_pos h2]
        exact (Option.some_inj.1 hf).symm
      · rw [if_neg h1, if_neg h2] at hf
        refine ⟨c, hc, h1, ?_⟩
        rw [if_neg h2]
        exact (Option.some_inj.1 hf).symm
  · rintro ⟨c, hc, h1, rfl⟩
    refine ⟨c, hc, ?_⟩
    rw [if_neg h1]
    by_cases h2 : -l ∈ c
    · rw [if_pos h2, if_pos h2]
    · rw [if_neg h2, if_neg h2]

theorem mem_of_mem_reduce {cnf : List (Finset ℤ)} {l x : ℤ} {c' : Finset ℤ}
    (hc' : c' ∈ reduce cnf l) (hx : x ∈ c') :
    (∃ c ∈ cnf, x ∈ c) ∧ x ≠ l ∧ x ≠ -l := by
  rcases mem_reduce.1 hc' with ⟨c, hc, hl, rfl⟩
  by_cases h2 : -l ∈ c
  · rw [if_pos h2] at hx
    rcases Finset.mem_erase.1 hx with ⟨hne, hxc⟩
    exact ⟨⟨c, hc, hxc⟩, fun h => hl (h ▸ hxc), hne⟩
  · rw [if_neg h2] at hx
    exact ⟨⟨c, hc, hx⟩, fun h => hl (h ▸ hx), fun h => h2 (h ▸ hx)⟩

theorem vars_of_reduce_subset (cnf : List (Finset ℤ)) (l : ℤ) :
    vars_of (reduce cnf l) ⊆ (vars_of cnf).erase |l| := by
  intro v hv
  rcases mem_vars_of_c.1 hv with ⟨x, ⟨c', hc', hx⟩, rfl⟩
  rcases mem_of_mem_reduce hc' hx with ⟨⟨c, hc, hxc⟩, hxl, hxl'⟩
  refine Finset.mem_erase.2 ⟨?_, var_mem_vars_of_c hc hxc⟩
  intro h
  rcases abs_eq_abs.1 h with h' | h'
  · exact hxl h'
  · exact hxl' h'

theorem zero_free_reduce {cnf : List (Finset ℤ)} {l : ℤ}
    (h : zero_free cnf) : zero_free (reduce cnf l) := by
  intro c' hc' h0
  rcases mem_of_mem_reduce hc' h0 with ⟨⟨c, hc, h0c⟩, _, _⟩
  exact h c hc h0c

theorem cnfSat_reduce_of {σ : ℤ → Bool} {cnf : List (Finset ℤ)} {l : ℤ}
    (hl : litVal σ l = true) (h : cnfSat σ cnf) : cnfSat σ (reduce cnf l) := by
  intro c' hc'
  rcases mem_reduce.1 hc' with ⟨c, hc, hlc, rfl⟩
  rcases h c hc with ⟨m, hm, hv⟩
  have hml : m ≠ -l := by
    intro hml
    subst hml
    by_cases h0 : l = 0
    · subst h0
      exact hlc (by simpa using hm)
    · rw [litVal_neg h0, hl] at hv
      simp at hv
  by_cases h2 : -l ∈ c
  · exact ⟨m, by rw [if_pos h2]; exact Finset.mem_erase.2 ⟨hml, hm⟩, hv⟩
  · exact ⟨m, by rw [if_neg h2]; exact hm, hv⟩

theorem cnfSat_of_reduce {σ : ℤ → Bool} {cnf : List (Finset ℤ)} {l : ℤ} (hl : l ≠ 0)
    (h : cnfSat σ (reduce cnf l)) :
    cnfSat (Function.update σ |l| (decide (0 < l))) cnf := by
  intro c hc
  by_cases hlc : l ∈ c
  · exact ⟨l, hlc, litVal_update_self hl⟩
  · have hc' : (if -l ∈ c then c.erase (-l) else c) ∈ reduce cnf l :=
      mem_reduce.2 ⟨c, hc, hlc, rfl⟩
    rcases h _ hc' with ⟨m, hm, hv⟩
    have hmc : m ∈ c ∧ m ≠ -l := by
      by_cases h2 : -l ∈ c
      · rw [if_pos h2] at hm
        rcases Finset.mem_erase.1 hm with ⟨hne, hmem⟩
        exact ⟨hmem, hne⟩
      · rw [if_neg h2] at hm
        exact ⟨hm, fun he => h2 (he ▸ hm)⟩
    have hmne : m ≠ l := fun he => hlc (he ▸ hmc.1)
    have habs : |m| ≠ |l| := by
      intro he
      rcases abs_eq_abs.1 he with h' | h'
      · exact hmne h'
      · exact hmc.2 h'
    exact ⟨m, hmc.1, (litVal_update_other habs).trans hv⟩

theorem satisfiable_split_c {cnf : List (Finset ℤ)} {l : ℤ} (hl : l ≠ 0) :
    satisfiable cnf ↔ satisfiable (reduce cnf l) ∨ satisfiable (reduce cnf (-l)) := by
  constructor
  · rintro ⟨σ, h⟩
    cases hval : litVal σ l with
    | true => exact Or.inl ⟨σ, cnfSat_reduce_of hval h⟩
    | false =>
      have hval' : litVal σ (-l) = true := by rw [litVal_neg hl, hval]; rfl
      exact Or.inr ⟨σ, cnfSat_reduce_of hval' h⟩
  · rintro (⟨σ, h⟩ | ⟨σ, h⟩)
    · exact ⟨_, cnfSat_of_reduce hl h⟩
    · exact ⟨_, cnfSat_of_reduce (by omega) h⟩

theorem satisfiable_reduce_unit {cnf : List (Finset ℤ)} {l : ℤ} (hl : l ≠ 0)
    (hu : ({l} : Finset ℤ) ∈ cnf) : satisfiable (reduce cnf l) ↔ satisfiable cnf := by
  constructor
  · rintro ⟨σ, h⟩
    exact ⟨_, cnfSat_of_reduce hl h⟩
  · rintro ⟨σ, h⟩
    rcases h _ hu with ⟨m, hm, hv⟩
    rcases Finset.mem_singleton.1 hm with rfl
    exact ⟨σ, cnfSat_reduce_of hv h⟩

theorem not_satisfiable_of_empty_mem_c {cnf : List (Finset ℤ)} (h : (∅ : Finset ℤ) ∈ cnf) :
    ¬ satisfiable cnf := by
  rintro ⟨σ, hσ⟩
  rcases hσ _ h with ⟨m, hm, _⟩
  exact absurd hm (Finset.not_mem_empty m)

theorem satisfiable_nil_c : satisfiable [] :=
  ⟨fun _ => true, fun c hc => absurd hc (List.not_mem_nil c)⟩

theorem not_satisfiable_units {cnf : List (Finset ℤ)} {l : ℤ} (hl : l ≠ 0)
    (h1 : ({l} : Finset ℤ) ∈ cnf) (h2 : ({-l} : Finset ℤ) ∈ cnf) :
    ¬ satisfiable cnf := by
  rintro ⟨σ, hσ⟩
  rcases hσ _ h1 with ⟨m, hm, hv⟩
  rcases Finset.mem_singleton.1 hm with rfl
  rcases hσ _ h2 with ⟨m', hm', hv'⟩
  rcases Finset.mem_singleton.1 hm' with rfl
  rw [litVal_neg hl, hv] at hv'
  simp at hv'

end comparison

namespace comparison

theorem vars_of_subset_of_forall_mem_c {F' F : List (Finset ℤ)} (h : ∀ c ∈ F', c ∈ F) :
    vars_of F' ⊆ vars_of F := by
  intro v hv
  rcases mem_vars_of_c.1 hv with ⟨l, ⟨c, hc, hl⟩, rfl⟩
  exact var_mem_vars_of_c (h c hc) hl

theorem mem_pure_lits {cnf : List (Finset ℤ)} {p : ℤ} :
    p ∈ pure_lits cnf ↔ p ∈ lits_of cnf ∧ -p ∉ lits_of cnf := by
  simp [pure_lits]

theorem zero_not_pure {cnf : List (Finset ℤ)} : (0 : ℤ) ∉ pure_lits cnf := by
  intro h
  rcases mem_pure_lits.1 h with ⟨h1, h2⟩
  exact h2 (by simpa using h1)

theorem mem_of_mem_pure_elim {cnf : List (Finset ℤ)} {c : Finset ℤ}
    (h : c ∈ pure_elim cnf) : c ∈ cnf :=
  (List.mem_filter.1 h).1

theorem pure_elim_sat (cnf : List (Finset ℤ)) :
    satisfiable (pure_elim cnf) ↔ satisfiable cnf := by
  constructor
  · rintro ⟨σ, h⟩
    classical
    set σ' : ℤ → Bool := fun v =>
      if v ∈ pure_lits cnf then true
      else if -v ∈ pure_lits cnf then false
      else σ v with hσ'
    have key1 : ∀ p ∈ pure_lits cnf, litVal σ' p = true := by
      intro p hp
      have hp0 : p ≠ 0 := fun h0 => zero_not_pure (h0 ▸ hp)
      by_cases hpos : 0 < p
      · simp [litVal, hpos, hσ', hp]
      · have hnp : -p ∉ pure_lits cnf := by
          intro hnp
          rcases mem_pure_lits.1 hp with ⟨hp1, hp2⟩
          rcases mem_pure_lits.1 hnp with ⟨hnp1, _⟩
          exact hp2 hnp1
        have hpp : -(-p) = p := neg_neg p
        simp [litVal, hpos, hσ', hnp, hpp, hp]
    have key2 : ∀ m : ℤ, m ∉ pure_lits cnf → -m ∉ pure_lits cnf →
        litVal σ' m = litVal σ m := by
      intro m h1 h2
      by_cases hpos : 0 < m
      · simp [litVal, hpos, hσ', h1, h2]
      · have hmm : -(-m) = m := neg_neg m
        simp [litVal, hpos, hσ', h1, h2, hmm]
    refine ⟨σ', ?_⟩
    intro c hc
    by_cases hp : ∀ l ∈ pure_lits cnf, l ∉ c
    · have hcp : c ∈ pure_elim cnf := by
        simp only [pure_elim, List.mem_filter]
        exact ⟨hc, by simpa using hp⟩
      rcases h c hcp with ⟨m, hm, hv⟩
      have h1 : m ∉ pure_lits cnf := fun hmp => (hp m hmp) hm
      have h2 : -m ∉ pure_lits cnf := by
        intro hmp
        rcases mem_pure_lits.1 hmp with ⟨_, hnot⟩
        exact hnot (by simpa using mem_lits_of_c.2 ⟨c, hc, hm⟩)
      exact ⟨m, hm, (key2 m h1 h2).trans hv⟩
    · push_neg at hp
      rcases hp with ⟨p, hp1, hp2⟩
      exact ⟨p, hp2, key1 p hp1⟩
  · rintro ⟨σ, h⟩
    exact ⟨σ, fun c hc => h c (mem_of_mem_pure_elim hc)⟩

theorem first_lit_singleton (l : ℤ) : first_lit {l} = l := by
  rw [first_lit, dif_pos (Finset.singleton_nonempty l)]
  exact Finset.min'_singleton l

theorem unit_prop_eq_of_no_units_c {n : ℕ} {cnf : List (Finset ℤ)}
    (hf : cnf.filter (fun c => c.card == 1) = []) :
    unit_prop (n+1) cnf = some (some cnf) := by
  simp only [unit_prop, hf]

theorem unit_prop_eq_of_unit_c {n : ℕ} {cnf : List (Finset ℤ)} {u : Finset ℤ}
    {us : List (Finset ℤ)}
    (hf : cnf.filter (fun c => c.card == 1) = u :: us) :
    unit_prop (n+1) cnf =
      if cnf.any (fun c => first_lit u ∉ c ∧ -first_lit u ∈ c ∧ c.erase (-first_lit u) = ∅)
      then some none else unit_prop n (reduce cnf (first_lit u)) := by
  simp only [unit_prop, hf]

theorem unit_filter_shape_c {cnf : List (Finset ℤ)} {u : Finset ℤ} {us : List (Finset ℤ)}
    (hf : cnf.filter (fun c => c.card == 1) = u :: us) :
    ∃ l : ℤ, u = {l} ∧ ({l} : Finset ℤ) ∈ cnf := by
  have hu : u ∈ cnf.filter (fun c => c.card == 1) := by
    rw [hf]
    exact List.mem_cons_self _ _
  rcases List.mem_filter.1 hu with ⟨humem, hcard⟩
  have hcard' : u.card = 1 := by simpa using hcard
  rcases Finset.card_eq_one.1 hcard' with ⟨l, rfl⟩
  exact ⟨l, rfl, humem⟩

theorem unit_prop_spec_c :
    ∀ n cnf, (vars_of cnf).card < n →
      (unit_prop n cnf = some none ∧ (zero_free cnf → ¬ satisfiable cnf)) ∨
      (∃ cnf', unit_prop n cnf = some (some cnf') ∧ vars_of cnf' ⊆ vars_of cnf ∧
        (zero_free cnf → zero_free cnf' ∧ (satisfiable cnf' ↔ satisfiable cnf))) := by
  intro n
  induction n with
  | zero => intro cnf h; omega
  | succ n ih =>
    intro cnf hcard
    cases hf : cnf.filter (fun c => c.card == 1) with
    | nil =>
      right
      exact ⟨cnf, unit_prop_eq_of_no_units_c hf, Finset.Subset.refl _, fun hz => ⟨hz, Iff.rfl⟩⟩
    | cons u us =>
      rcases unit_filter_shape_c hf with ⟨l, rfl, hlmem⟩
      have heq : unit_prop (n+1) cnf =
          if cnf.any (fun c => first_lit {l} ∉ c ∧ -first_lit {l} ∈ c ∧
            c.erase (-first_lit {l}) = ∅)
          then some none else unit_prop n (reduce cnf (first_lit {l})) :=
        unit_prop_eq_of_unit_c hf
      rw [first_lit_singleton] at heq
      have hl0 : zero_free cnf → l ≠ 0 := fun hz h0 =>
        hz _ hlmem (by simp [h0])
      by_cases hany : cnf.any (fun c => l ∉ c ∧ -l ∈ c ∧ c.erase (-l) = ∅) = true
      · left
        refine ⟨by rw [heq, if_pos hany], ?_⟩
        intro hz
        rcases List.any_eq_true.1 hany with ⟨c, hc, hcond⟩
        simp only [decide_eq_true_eq] at hcond
        rcases hcond with ⟨hlc, hnlc, herase⟩
        have hceq : c = {-l} := by
          apply Finset.eq_singleton_iff_unique_mem.2
          refine ⟨hnlc, ?_⟩
          intro x hx
          by_contra hne
          have : x ∈ c.erase (-l) := Finset.mem_erase.2 ⟨hne, hx⟩
          rw [herase] at this
          exact absurd this (Finset.not_mem_empty x)
        exact not_satisfiable_units (hl0 hz) hlmem (hceq ▸ hc)
      · have hlv : |l| ∈ vars_of cnf := var_mem_vars_of_c hlmem (Finset.mem_singleton_self l)
        have hcard2 : (vars_of (reduce cnf l)).card < n := by
          have h1 := Finset.card_le_card (vars_of_reduce_subset cnf l)
          have h2 := Finset.card_erase_lt_of_mem hlv
          omega
        rcases ih (reduce cnf l) hcard2 with ⟨hup, hcond⟩ | ⟨cnf', hup, hsub', hcond⟩
        · left
          refine ⟨by rw [heq, if_neg hany]; exact hup, ?_⟩
          intro hz
          rw [← satisfiable_reduce_unit (hl0 hz) hlmem]
          exact hcond (zero_free_reduce hz)
        · right
          refine ⟨cnf', by rw [heq, if_neg hany]; exact hup,
            hsub'.trans ((vars_of_reduce_subset cnf l).trans (Finset.erase_subset _ _)), ?_⟩
          intro hz
          rcases hcond (zero_free_reduce hz) with ⟨hz', hiff⟩
          exact ⟨hz', hiff.trans (satisfiable_reduce_unit (hl0 hz) hlmem)⟩

end comparison

namespace comparison

theorem dpll_fuel_correct :
    ∀ n cnf, (vars_of cnf).card < n → zero_free cnf →
      ∃ b, dpll_solver_fuel n cnf = some b ∧ (b = true ↔ satisfiable cnf) := by
  intro n
  induction n with
  | zero => intro cnf h; omega
  | succ n ih =>
    intro cnf hcard hz
    rcases unit_prop_spec_c ((vars_of cnf).card + 1) cnf (Nat.lt_succ_self _) with
      ⟨hup, hcond⟩ | ⟨cnf1, hup, hsub1, hcond⟩
    · refine ⟨false, ?_, ?_⟩
      · simp only [dpll_solver_fuel, hup]
      · simp [hcond hz]
    · rcases hcond hz with ⟨hz1, hiff1⟩
      have hiff2 : satisfiable (pure_elim cnf1) ↔ satisfiable cnf :=
        (pure_elim_sat cnf1).trans hiff1
      have hz2 : zero_free (pure_elim cnf1) := fun c hc => hz1 c (mem_of_mem_pure_elim hc)
      have hsub2 : vars_of (pure_elim cnf1) ⊆ vars_of cnf :=
        (vars_of_subset_of_forall_mem_c (fun c hc => mem_of_mem_pure_elim hc)).trans hsub1
      by_cases h3 : pure_elim cnf1 = []
      · refine ⟨true, ?_, ?_⟩
        · simp only [dpll_solver_fuel, hup]
          rw [h3]
          simp
        · simp only [true_iff]
          exact hiff2.1 (h3 ▸ satisfiable_nil_c)
      · by_cases h4 : (pure_elim cnf1).any (fun c => c.card == 0) = true
        · refine ⟨false, ?_, ?_⟩
          · simp only [dpll_solver_fuel, hup]
            rw [if_neg h3, if_pos h4]
          · rcases List.any_eq_true.1 h4 with ⟨c, hc, hcond0⟩
            have hc0 : c = ∅ := Finset.card_eq_zero.1 (by simpa using hcond0)
            have hns : ¬ satisfiable (pure_elim cnf1) :=
              not_satisfiable_of_empty_mem_c (hc0 ▸ hc)
            have hns' : ¬ satisfiable cnf := fun h => hns (hiff2.2 h)
            simp [hns']
        · obtain ⟨c, rest, hshape⟩ : ∃ c rest, pure_elim cnf1 = c :: rest := by
            rcases hpe : pure_elim cnf1 with _ | ⟨c, rest⟩
            · exact absurd hpe h3
            · exact ⟨c, rest, rfl⟩
          rw [hshape] at hz2 hsub2 hiff2 h4
          have hcne : c.Nonempty := by
            rcases Finset.eq_empty_or_nonempty c with hce | hcne
            · exfalso
              apply h4
              simp [List.any_cons, hce]
            · exact hcne
          have hl0 : first_lit c ≠ 0 := fun h0 =>
            hz2 c (List.mem_cons_self _ _) (h0 ▸ first_lit_mem hcne)
          have habs0 : |first_lit c| ≠ 0 := by simpa using hl0
          have hlv : |first_lit c| ∈ vars_of (c :: rest) :=
            var_mem_vars_of_c (List.mem_cons_self _ _) (first_lit_mem hcne)
          have hkey : ∀ t : ℤ, |t| = |first_lit c| →
              (vars_of (reduce (c :: rest) t)).card < n := by
            intro t ht
            have ha := Finset.card_le_card (vars_of_reduce_subset (c :: rest) t)
            have hb : ((vars_of (c :: rest)).erase |t|).card < (vars_of (c :: rest)).card :=
              Finset.card_erase_lt_of_mem (by rw [ht]; exact hlv)
            have hc := Finset.card_le_card hsub2
            omega
          rcases ih _ (hkey |first_lit c| (abs_abs _)) (zero_free_reduce hz2)
            with ⟨b1, hb1, hiffb1⟩
          rcases ih _ (hkey (-|first_lit c|) (by rw [abs_neg, abs_abs])) (zero_free_reduce hz2)
            with ⟨b2, hb2, hiffb2⟩
          have hsplit : satisfiable (c :: rest) ↔
              satisfiable (reduce (c :: rest) |first_lit c|) ∨
              satisfiable (reduce (c :: rest) (-|first_lit c|)) :=
            satisfiable_split_c habs0
          have h4a : ¬c = ∅ := by
            intro hce
            exact h4 (by simp [List.any_cons, hce])
          have h4b : (∅ : Finset ℤ) ∉ rest := by
            intro hre
            exact h4 (List.any_eq_true.2 ⟨∅, List.mem_cons_of_mem _ hre, by simp⟩)
          cases b1 with
          | true =>
            refine ⟨true, ?_, ?_⟩
            · simp only [dpll_solver_fuel, hup]
              rw [hshape]
              simp [List.headI, hb1, h4a, h4b]
            · simp only [true_iff]
              exact hiff2.1 (hsplit.2 (Or.inl (hiffb1.1 rfl)))
          | false =>
            refine ⟨b2, ?_, ?_⟩
            · simp only [dpll_solver_fuel, hup]
              rw [hshape]
              simp [List.headI, hb1, hb2, h4a, h4b]
            · constructor
              · intro hb
                exact hiff2.1 (hsplit.2 (Or.inr (hiffb2.1 hb)))
              · intro hsat
                rcases hsplit.1 (hiff2.2 hsat) with hs | hs
                · simpa using hiffb1.2 hs
                · exact hiffb2.2 hs

theorem dpll_solver_correct_c (cnf : List (Finset ℤ)) (hz : zero_free cnf) :
    ∃ b, dpll_solver cnf = some b ∧ (b = true ↔ satisfiable cnf) :=
  dpll_fuel_correct _ cnf (Nat.lt_succ_self _) hz

end comparison

namespace resolution

theorem dp_solver_correct (cnf : CNFFormula) (hz : zero_free cnf) :
    ∃ b, dp_solver cnf = some b ∧ (b = true ↔ satisfiable cnf) :=
  dp_rec_correct _ cnf (Nat.lt_succ_self _) hz

theorem dpll_solver_correct (cnf : CNFFormula) (hz : zero_free cnf) :
    ∃ b, dpll_solver cnf = some b ∧ (b = true ↔ satisfiable cnf) :=
  dpll_rec_correct _ cnf (Nat.lt_succ_self _) hz

end resolution

namespace comparison

theorem mem_sup_id {C : Finset (Finset ℤ)} {x : ℤ} :
    x ∈ C.sup id ↔ ∃ c ∈ C, x ∈ c := by
  simp [Finset.mem_sup]

theorem clause_subset_sup {C : Finset (Finset ℤ)} {c : Finset ℤ} (hc : c ∈ C) :
    c ⊆ C.sup id := by
  intro x hx
  exact mem_sup_id.2 ⟨c, hc, hx⟩

theorem not_has_balanced_empty : ¬ has_balanced (∅ : Finset (Finset ℤ)) := by
  rintro ⟨C, hC, hne, _⟩
  rcases hne with ⟨c, hc⟩
  exact absurd (Finset.mem_powerset.1 hC hc) (Finset.not_mem_empty c)

theorem has_balanced_of_empty_mem {S : Finset (Finset ℤ)} (h : (∅ : Finset ℤ) ∈ S) :
    has_balanced S := by
  refine ⟨{∅}, Finset.mem_powerset.2 (Finset.singleton_subset_iff.2 h),
    Finset.singleton_nonempty _, ?_⟩
  intro l hl
  rcases mem_sup_id.1 hl with ⟨c, hc, hlc⟩
  rcases Finset.mem_singleton.1 hc with rfl
  exact absurd hlc (Finset.not_mem_empty l)

theorem has_balanced_dp_next_of {cnf : List (Finset ℤ)} {v : ℤ}
    (h : has_balanced cnf.toFinset) : has_balanced (dp_next cnf v).toFinset := by
  rcases h with ⟨C, hCsub, hCne, hCbal⟩
  have hCmem : ∀ c ∈ C, c ∈ cnf := fun c hc =>
    List.mem_toFinset.1 (Finset.mem_powerset.1 hCsub hc)
  by_cases hv : v ∈ C.sup id ∨ -v ∈ C.sup id
  · have hvboth : v ∈ C.sup id ∧ -v ∈ C.sup id := by
      rcases hv with hv | hv
      · exact ⟨hv, hCbal v hv⟩
      · have := hCbal _ hv
        rw [neg_neg] at this
        exact ⟨this, hv⟩
    rcases mem_sup_id.1 hvboth.1 with ⟨cp, hcp, hvcp⟩
    rcases mem_sup_id.1 hvboth.2 with ⟨cn, hcn, hvcn⟩
    set posC := C.filter (fun c => v ∈ c) with hposC
    set negC := C.filter (fun c => -v ∈ c) with hnegC
    set C' := (C.filter (fun c => v ∉ c ∧ -v ∉ c)) ∪
      posC.biUnion (fun c1 => negC.image (fun c2 => (c1 ∪ c2) \ {v, -v})) with hC'
    have hcpP : cp ∈ posC := Finset.mem_filter.2 ⟨hcp, hvcp⟩
    have hcnN : cn ∈ negC := Finset.mem_filter.2 ⟨hcn, hvcn⟩
    have hsup : ∀ x, x ∈ C'.sup id ↔ x ∈ C.sup id ∧ x ≠ v ∧ x ≠ -v := by
      intro x
      constructor
      · intro hx
        rcases mem_sup_id.1 hx with ⟨c', hc', hxc'⟩
        rcases Finset.mem_union.1 hc' with hc' | hc'
        · rcases Finset.mem_filter.1 hc' with ⟨hcC, hno⟩
          exact ⟨mem_sup_id.2 ⟨c', hcC, hxc'⟩, fun he => hno.1 (he ▸ hxc'),
            fun he => hno.2 (he ▸ hxc')⟩
        · rcases Finset.mem_biUnion.1 hc' with ⟨c1, hc1, hc'img⟩
          rcases Finset.mem_image.1 hc'img with ⟨c2, hc2, rfl⟩
          rcases Finset.mem_sdiff.1 hxc' with ⟨hx12, hxne⟩
          simp only [Finset.mem_insert, Finset.mem_singleton] at hxne
          push_neg at hxne
          rcases Finset.mem_union.1 hx12 with hx' | hx'
          · exact ⟨mem_sup_id.2 ⟨c1, (Finset.mem_filter.1 hc1).1, hx'⟩, hxne.1, hxne.2⟩
          · exact ⟨mem_sup_id.2 ⟨c2, (Finset.mem_filter.1 hc2).1, hx'⟩, hxne.1, hxne.2⟩
      · rintro ⟨hxU, hxv, hxnv⟩
        rcases mem_sup_id.1 hxU with ⟨c, hcC, hxc⟩
        by_cases hcv : v ∈ c
        · have hres : (c ∪ cn) \ {v, -v} ∈ C' := by
            refine Finset.mem_union_right _ (Finset.mem_biUnion.2
              ⟨c, Finset.mem_filter.2 ⟨hcC, hcv⟩, Finset.mem_image.2 ⟨cn, hcnN, rfl⟩⟩)
          refine mem_sup_id.2 ⟨_, hres, ?_⟩
          refine Finset.mem_sdiff.2 ⟨Finset.mem_union_left _ hxc, ?_⟩
          simp [hxv, hxnv]
        · by_cases hcnv : -v ∈ c
          · have hres : (cp ∪ c) \ {v, -v} ∈ C' := by
              refine Finset.mem_union_right _ (Finset.mem_biUnion.2
                ⟨cp, hcpP, Finset.mem_image.2 ⟨c, Finset.mem_filter.2 ⟨hcC, hcnv⟩, rfl⟩⟩)
            refine mem_sup_id.2 ⟨_, hres, ?_⟩
            refine Finset.mem_sdiff.2 ⟨Finset.mem_union_right _ hxc, ?_⟩
            simp [hxv, hxnv]
          · have hoth : c ∈ C' :=
              Finset.mem_union_left _ (Finset.mem_filter.2 ⟨hcC, hcv, hcnv⟩)
            exact mem_sup_id.2 ⟨c, hoth, hxc⟩
    refine ⟨C', ?_, ?_, ?_⟩
    · refine Finset.mem_powerset.2 ?_
      intro c' hc'
      rcases Finset.mem_union.1 hc' with hc' | hc'
      · rcases Finset.mem_filter.1 hc' with ⟨hcC, hno⟩
        refine List.mem_toFinset.2 (mem_dp_next.2 (Or.inl ⟨hCmem _ hcC, hno.1, hno.2⟩))
      · rcases Finset.mem_biUnion.1 hc' with ⟨c1, hc1, hc'img⟩
        rcases Finset.mem_image.1 hc'img with ⟨c2, hc2, rfl⟩
        rcases Finset.mem_filter.1 hc1 with ⟨hc1C, hc1v⟩
        rcases Finset.mem_filter.1 hc2 with ⟨hc2C, hc2v⟩
        exact List.mem_toFinset.2 (mem_dp_next.2
          (Or.inr ⟨c1, hCmem _ hc1C, c2, hCmem _ hc2C, hc1v, hc2v, rfl⟩))
    · exact ⟨(cp ∪ cn) \ {v, -v}, Finset.mem_union_right _ (Finset.mem_biUnion.2
        ⟨cp, hcpP, Finset.mem_image.2 ⟨cn, hcnN, rfl⟩⟩)⟩
    · intro l hl
      rcases (hsup l).1 hl with ⟨hlU, hlv, hlnv⟩
      refine (hsup (-l)).2 ⟨hCbal l hlU, ?_, ?_⟩
      · intro he
        exact hlnv (by omega)
      · intro he
        exact hlv (by omega)
  · push_neg at hv
    refine ⟨C, ?_, hCne, hCbal⟩
    refine Finset.mem_powerset.2 ?_
    intro c hc
    have hvc : v ∉ c := fun h => hv.1 (mem_sup_id.2 ⟨c, hc, h⟩)
    have hnvc : -v ∉ c := fun h => hv.2 (mem_sup_id.2 ⟨c, hc, h⟩)
    exact List.mem_toFinset.2 (mem_dp_next.2 (Or.inl ⟨hCmem _ hc, hvc, hnvc⟩))

theorem has_balanced_of_dp_next {cnf : List (Finset ℤ)} {v : ℤ}
    (h : has_balanced (dp_next cnf v).toFinset) : has_balanced cnf.toFinset := by
  rcases h with ⟨C', hC'sub, hC'ne, hC'bal⟩
  have hW : ∀ c' ∈ C', ∃ D : Finset (Finset ℤ),
      (∀ d ∈ D, d ∈ cnf) ∧ D.Nonempty ∧
      (∀ l ∈ D.sup id, l ∈ c' ∨ -l ∈ D.sup id) ∧ c' ⊆ D.sup id := by
    intro c' hc'
    have hc'mem : c' ∈ dp_next cnf v :=
      List.mem_toFinset.1 (Finset.mem_powerset.1 hC'sub hc')
    rcases mem_dp_next.1 hc'mem with ⟨hcC, hv1, hv2⟩ | ⟨c1, hc1, c2, hc2, hvc1, hvc2, rfl⟩
    · refine ⟨{c'}, ?_, Finset.singleton_nonempty _, ?_, ?_⟩
      · intro d hd
        rcases Finset.mem_singleton.1 hd with rfl
        exact hcC
      · intro l hl
        rcases mem_sup_id.1 hl with ⟨d, hd, hld⟩
        rcases Finset.mem_singleton.1 hd with rfl
        exact Or.inl hld
      · intro x hx
        exact mem_sup_id.2 ⟨c', Finset.mem_singleton_self _, hx⟩
    · refine ⟨{c1, c2}, ?_, ⟨c1, Finset.mem_insert_self _ _⟩, ?_, ?_⟩
      · intro d hd
        rcases Finset.mem_insert.1 hd with rfl | hd
        · exact hc1
        · rcases Finset.mem_singleton.1 hd with rfl
          exact hc2
      · intro l hl
        by_cases hlv : l = v
        · subst hlv
          exact Or.inr (mem_sup_id.2 ⟨c2, Finset.mem_insert_of_mem (Finset.mem_singleton_self _), hvc2⟩)
        · by_cases hlnv : l = -v
          · subst hlnv
            refine Or.inr (mem_sup_id.2 ⟨c1, Finset.mem_insert_self _ _, ?_⟩)
            rw [neg_neg]
            exact hvc1
          · rcases mem_sup_id.1 hl with ⟨d, hd, hld⟩
            refine Or.inl (Finset.mem_sdiff.2 ⟨?_, by simp [hlv, hlnv]⟩)
            rcases Finset.mem_insert.1 hd with rfl | hd
            · exact Finset.mem_union_left _ hld
            · rcases Finset.mem_singleton.1 hd with rfl
              exact Finset.mem_union_right _ hld
      · intro x hx
        rcases Finset.mem_sdiff.1 hx with ⟨hx12, _⟩
        rcases Finset.mem_union.1 hx12 with hx' | hx'
        · exact mem_sup_id.2 ⟨c1, Finset.mem_insert_self _ _, hx'⟩
        · exact mem_sup_id.2 ⟨c2, Finset.mem_insert_of_mem (Finset.mem_singleton_self _), hx'⟩
  classical
  choose! D hD1 hD2 hD3 hD4 using hW
  set C := C'.biUnion D with hC
  have hsupD : ∀ c' ∈ C', (D c').sup id ⊆ C.sup id := by
    intro c' hc' x hx
    rcases mem_sup_id.1 hx with ⟨d, hd, hxd⟩
    exact mem_sup_id.2 ⟨d, Finset.mem_biUnion.2 ⟨c', hc', hd⟩, hxd⟩
  refine ⟨C, ?_, ?_, ?_⟩
  · refine Finset.mem_powerset.2 ?_
    intro d hd
    rcases Finset.mem_biUnion.1 hd with ⟨c', hc', hdD⟩
    exact List.mem_toFinset.2 (hD1 c' hc' d hdD)
  · rcases hC'ne with ⟨c', hc'⟩
    rcases hD2 c' hc' with ⟨d, hd⟩
    exact ⟨d, Finset.mem_biUnion.2 ⟨c', hc', hd⟩⟩
  · intro l hl
    rcases mem_sup_id.1 hl with ⟨d, hd, hld⟩
    rcases Finset.mem_biUnion.1 hd with ⟨c', hc', hdD⟩
    have hlD : l ∈ (D c').sup id := mem_sup_id.2 ⟨d, hdD, hld⟩
    rcases hD3 c' hc' l hlD with hlc' | hlneg
    · have hlsup : l ∈ C'.sup id := mem_sup_id.2 ⟨c', hc', hlc'⟩
      have hneg := hC'bal l hlsup
      rcases mem_sup_id.1 hneg with ⟨c'', hc'', hlc''⟩
      have hmem : -l ∈ (D c'').sup id := hD4 c'' hc'' hlc''
      exact hsupD c'' hc'' hmem
    · exact hsupD c' hc' hlneg

theorem dp_fuel_char :
    ∀ n cnf b, dp_solver_fuel n cnf = some b → (b = false ↔ has_balanced cnf.toFinset) := by
  intro n
  induction n with
  | zero => intro cnf b h; exact absurd h (by simp [dp_solver_fuel])
  | succ n ih =>
    intro cnf b h
    by_cases h1 : cnf = []
    · subst h1
      rw [dp_solver_fuel] at h
      simp only [if_pos rfl] at h
      rcases Option.some_inj.1 h with rfl
      simp [not_has_balanced_empty]
    · by_cases h2 : cnf.any (fun c => c.card == 0) = true
      · rw [dp_solver_fuel, if_neg h1, if_pos h2] at h
        rcases Option.some_inj.1 h with rfl
        rcases List.any_eq_true.1 h2 with ⟨c, hc, hcond⟩
        have hc0 : c = ∅ := Finset.card_eq_zero.1 (by simpa using hcond)
        simp only [true_iff]
        exact has_balanced_of_empty_mem (List.mem_toFinset.2 (hc0 ▸ hc))
      · rw [dp_solver_fuel, if_neg h1, if_neg h2] at h
        rw [ih _ b h]
        constructor
        · exact has_balanced_of_dp_next
        · exact has_balanced_dp_next_of

theorem dp_solver_char (cnf : List (Finset ℤ)) :
    ∃ b, dp_solver cnf = some b ∧ (b = false ↔ has_balanced cnf.toFinset) := by
  rcases dp_solver_isSome_c cnf with ⟨b, hb⟩
  exact ⟨b, hb, dp_fuel_char _ cnf b hb⟩

end comparison

namespace comparison

theorem lits_of_eq_of_toFinset_eq {F1 F2 : List (Finset ℤ)}
    (h : F1.toFinset = F2.toFinset) : lits_of F1 = lits_of F2 := by
  ext x
  simp only [mem_lits_of_c]
  constructor
  · rintro ⟨c, hc, hx⟩
    exact ⟨c, List.mem_toFinset.1 (h ▸ List.mem_toFinset.2 hc), hx⟩
  · rintro ⟨c, hc, hx⟩
    exact ⟨c, List.mem_toFinset.1 (h.symm ▸ List.mem_toFinset.2 hc), hx⟩

theorem zero_free_of_toFinset_eq {F1 F2 : List (Finset ℤ)}
    (h : F1.toFinset = F2.toFinset) (hz : zero_free F1) : zero_free F2 := by
  intro c hc
  exact hz c (List.mem_toFinset.1 (h.symm ▸ List.mem_toFinset.2 hc))

theorem satisfiable_of_toFinset_eq {F1 F2 : List (Finset ℤ)}
    (h : F1.toFinset = F2.toFinset) : satisfiable F1 ↔ satisfiable F2 := by
  constructor <;> rintro ⟨σ, hσ⟩
  · exact ⟨σ, fun c hc => hσ c (List.mem_toFinset.1 (h.symm ▸ List.mem_toFinset.2 hc))⟩
  · exact ⟨σ, fun c hc => hσ c (List.mem_toFinset.1 (h ▸ List.mem_toFinset.2 hc))⟩

theorem dp_fuel_step {n : ℕ} {cnf : List (Finset ℤ)} (h1 : cnf ≠ [])
    (h2 : cnf.any (fun c => c.card == 0) = false) :
    dp_solver_fuel (n+1) cnf = dp_solver_fuel n (dp_next cnf (dp_pick cnf)) := by
  rw [dp_solver_fuel, if_neg h1, if_neg (by rw [h2]; exact Bool.false_ne_true)]

theorem dp_next_not_mem (cnf : List (Finset ℤ)) (v : ℤ) :
    ∀ c ∈ dp_next cnf v, v ∉ c ∧ -v ∉ c := by
  intro c hc
  rcases mem_dp_next.1 hc with ⟨_, h⟩ | ⟨c1, _, c2, _, _, _, rfl⟩
  · exact h
  · constructor <;> intro h <;> rcases Finset.mem_sdiff.1 h with ⟨_, hne⟩ <;> simp at hne

end comparison

namespace resolution

theorem mem_clause_sets {F : CNFFormula} {s : Finset ℤ} :
    s ∈ (F.map List.toFinset).toFinset ↔ ∃ c ∈ F, c.toFinset = s := by
  simp [List.mem_toFinset, List.mem_map]

theorem lits_of_eq_of_sets_eq {G1 G2 : CNFFormula}
    (h : (G1.map List.toFinset).toFinset = (G2.map List.toFinset).toFinset) :
    lits_of G1 = lits_of G2 := by
  ext x
  simp only [mem_lits_of]
  constructor
  · rintro ⟨c, hc, hx⟩
    have hs : c.toFinset ∈ (G2.map List.toFinset).toFinset :=
      h ▸ mem_clause_sets.2 ⟨c, hc, rfl⟩
    rcases mem_clause_sets.1 hs with ⟨c2, hc2, hc2s⟩
    exact ⟨c2, hc2, by rw [← List.mem_toFinset, hc2s, List.mem_toFinset]; exact hx⟩
  · rintro ⟨c, hc, hx⟩
    have hs : c.toFinset ∈ (G1.map List.toFinset).toFinset :=
      h.symm ▸ mem_clause_sets.2 ⟨c, hc, rfl⟩
    rcases mem_clause_sets.1 hs with ⟨c1, hc1, hc1s⟩
    exact ⟨c1, hc1, by rw [← List.mem_toFinset, hc1s, List.mem_toFinset]; exact hx⟩

theorem zero_free_of_sets_eq {G1 G2 : CNFFormula}
    (h : (G1.map List.toFinset).toFinset = (G2.map List.toFinset).toFinset)
    (hz : zero_free G1) : zero_free G2 := by
  intro c hc h0
  have hs : c.toFinset ∈ (G1.map List.toFinset).toFinset :=
    h.symm ▸ mem_clause_sets.2 ⟨c, hc, rfl⟩
  rcases mem_clause_sets.1 hs with ⟨c1, hc1, hc1s⟩
  refine hz c1 hc1 ?_
  rw [← List.mem_toFinset, hc1s, List.mem_toFinset]
  exact h0

theorem clauseSat_of_toFinset_eq {σ : ℤ → Bool} {c1 c2 : Clause}
    (h : c1.toFinset = c2.toFinset) (hs : clauseSat σ c1) : clauseSat σ c2 := by
  rcases hs with ⟨m, hm, hv⟩
  exact ⟨m, by rw [← List.mem_toFinset, ← h, List.mem_toFinset]; exact hm, hv⟩

theorem satisfiable_of_sets_eq {G1 G2 : CNFFormula}
    (h : (G1.map List.toFinset).toFinset = (G2.map List.toFinset).toFinset) :
    satisfiable G1 ↔ satisfiable G2 := by
  constructor <;> rintro ⟨σ, hσ⟩ <;> refine ⟨σ, ?_⟩ <;> intro c hc
  · have hs : c.toFinset ∈ (G1.map List.toFinset).toFinset :=
      h.symm ▸ mem_clause_sets.2 ⟨c, hc, rfl⟩
    rcases mem_clause_sets.1 hs with ⟨c1, hc1, hc1s⟩
    exact clauseSat_of_toFinset_eq hc1s (hσ c1 hc1)
  · have hs : c.toFinset ∈ (G2.map List.toFinset).toFinset :=
      h ▸ mem_clause_sets.2 ⟨c, hc, rfl⟩
    rcases mem_clause_sets.1 hs with ⟨c2, hc2, hc2s⟩
    exact clauseSat_of_toFinset_eq hc2s (hσ c2 hc2)

theorem simplify_not_mem (cnf : CNFFormula) (t : ℤ) :
    ∀ c ∈ simplify cnf t, t ∉ c ∧ -t ∉ c := by
  intro c hc
  constructor <;> intro hmem
  · exact (mem_of_mem_simplify hc hmem).2.1 rfl
  · exact (mem_of_mem_simplify hc hmem).2.2 rfl

theorem dp_recursive_step {n : ℕ} {l : ℤ} {c0 : Clause} {rest : List Clause}
    (hemp : [] ∉ (l :: c0) :: rest) :
    dp_recursive (n+1) ((l :: c0) :: rest) =
      (match dp_recursive n (simplify ((l :: c0) :: rest) |l|) with
       | some true => some true
       | some false => dp_recursive n (simplify ((l :: c0) :: rest) (-|l|))
       | none => none) := by
  simp only [dp_recursive, if_neg hemp]

end resolution

/-- Claim C1 (failing-input evidence): the three implementations of `decide` do
not agree on every well-formed formula.  On the formula consisting of a single
empty clause, both `resolution_solver`s answer SAT while the DP and DPLL
solvers of both files answer UNSAT. -/
theorem C1_solvers_disagree_on_empty_clause :
    comparison.resolution_solver [∅] = some true ∧
    comparison.dp_solver [∅] = some false ∧
    comparison.dpll_solver [∅] = some false ∧
    resolution.resolution_solver [[]] = some true ∧
    resolution.dp_solver [[]] = some false ∧
    resolution.dpll_solver [[]] = some false := by
  exact ⟨by decide, by decide, by decide, by decide, by decide, by decide⟩

/-- Claim C2 (failing-input evidence): a formula containing the empty clause is
unsatisfiable, and the claim requires every solver to answer UNSAT on it; but
both `resolution_solver`s answer SAT on the formula `[∅]`, because the
saturation loop only tests freshly derived resolvents for emptiness, never the
input clauses. -/
theorem C2_resolution_solver_sat_on_empty_clause :
    (∅ : Finset ℤ) ∈ ([∅] : List (Finset ℤ)) ∧
    ¬ comparison.satisfiable [∅] ∧
    comparison.resolution_solver [∅] = some true ∧
    ([] : resolution.Clause) ∈ ([[]] : resolution.CNFFormula) ∧
    ¬ resolution.satisfiable [[]] ∧
    resolution.resolution_solver [[]] = some true :=
  ⟨by decide, comparison.not_satisfiable_of_empty_mem_c (by decide), by decide,
   by decide, resolution.not_satisfiable_of_empty_mem (by decide), by decide⟩

/-- Claim C3 (failing-input evidence): the tautological clause `{1, -1}` is
satisfiable and five of the six solvers answer SAT on it, but `dp_solver` of
comparison.py answers UNSAT: the clause lands in both `pos` and `neg` and is
resolved against itself, producing the empty clause. -/
theorem C3_dp_solver_unsat_on_tautology :
    comparison.satisfiable [({1, -1} : Finset ℤ)] ∧
    comparison.dp_solver [{1, -1}] = some false ∧
    comparison.dpll_solver [{1, -1}] = some true ∧
    comparison.resolution_solver [{1, -1}] = some true ∧
    resolution.dp_solver [[1, -1]] = some true ∧
    resolution.dpll_solver [[1, -1]] = some true ∧
    resolution.resolution_solver [[1, -1]] = some true := by
  refine ⟨⟨fun _ => true, ?_⟩, by decide, by decide, by decide, by decide, by decide,
    by decide⟩
  intro c hc
  rcases List.mem_singleton.1 hc with rfl
  exact ⟨1, by decide, by simp [litVal]⟩

/-- Claim C4 is false for resolution.py: on the formula `[[1,2],[-1,3]]` the
first step of `dp_recursive` chooses variable 1 and recurses on
`simplify cnf 1 = [[3]]` and `simplify cnf (-1) = [[2]]`, neither of which is
the elimination formula `others ++ resolvents = [[2,3]]` described by the
claim — not even up to the clause sets they denote. -/
theorem C4_dp_recursive_not_elimination :
    resolution.dp_recursive 3 [[1, 2], [-1, 3]] =
      (match resolution.dp_recursive 2 (resolution.simplify [[1, 2], [-1, 3]] 1) with
       | some true => some true
       | some false => resolution.dp_recursive 2 (resolution.simplify [[1, 2], [-1, 3]] (-1))
       | none => none) ∧
    resolution.simplify [[1, 2], [-1, 3]] 1 = [[3]] ∧
    resolution.simplify [[1, 2], [-1, 3]] (-1) = [[2]] ∧
    dp_elim_step [[1, 2], [-1, 3]] 1 = [[2, 3]] ∧
    (([[3]] : resolution.CNFFormula).map List.toFinset).toFinset ≠
      (([[2, 3]] : resolution.CNFFormula).map List.toFinset).toFinset ∧
    (([[2]] : resolution.CNFFormula).map List.toFinset).toFinset ≠
      (([[2, 3]] : resolution.CNFFormula).map List.toFinset).toFinset := by
  exact ⟨by decide, by decide, by decide, by decide, by decide, by decide⟩

/-- Claim C4 as amended: `dp_solver` of comparison.py does follow the claimed
scheme — away from the terminal cases it recurses on `dp_next`, the partition
of the clauses on the picked variable combined with all pairwise
`pos × neg` resolvents, a formula in which the variable no longer occurs in
either polarity; `dp_recursive` of resolution.py instead decides by splitting:
it recurses on `simplify cnf v` and `simplify cnf (-v)`, in each of which the
variable no longer occurs either. -/
theorem C4_dp_step_amended :
    (∀ (n : ℕ) (cnf : List (Finset ℤ)), cnf ≠ [] →
      cnf.any (fun c => c.card == 0) = false →
      comparison.dp_solver_fuel (n+1) cnf =
        comparison.dp_solver_fuel n (comparison.dp_next cnf (comparison.dp_pick cnf))) ∧
    (∀ (cnf : List (Finset ℤ)) (v : ℤ), ∀ c ∈ comparison.dp_next cnf v,
      v ∉ c ∧ -v ∉ c) ∧
    (∀ (n : ℕ) (l : ℤ) (c0 : resolution.Clause) (rest : List resolution.Clause),
      [] ∉ (l :: c0) :: rest →
      resolution.dp_recursive (n+1) ((l :: c0) :: rest) =
        (match resolution.dp_recursive n (resolution.simplify ((l :: c0) :: rest) |l|) with
         | some true => some true
         | some false =>
             resolution.dp_recursive n (resolution.simplify ((l :: c0) :: rest) (-|l|))
         | none => none)) ∧
    (∀ (cnf : resolution.CNFFormula) (t : ℤ), ∀ c ∈ resolution.simplify cnf t,
      t ∉ c ∧ -t ∉ c) :=
  ⟨fun _ _ h1 h2 => comparison.dp_fuel_step h1 h2,
   comparison.dp_next_not_mem,
   fun _ _ _ _ h => resolution.dp_recursive_step h,
   resolution.simplify_not_mem⟩

/-- Concrete instance of the amended claim C4: one elimination step of each DP
solver on a two-literal clause. -/
theorem C4_dp_step_amended_witness :
    comparison.dp_solver_fuel 2 [({1, 2} : Finset ℤ)] =
      comparison.dp_solver_fuel 1
        (comparison.dp_next [({1, 2} : Finset ℤ)] (comparison.dp_pick [{1, 2}])) ∧
    resolution.dp_recursive 2 [[1, 2]] =
      (match resolution.dp_recursive 1 (resolution.simplify [[1, 2]] |(1 : ℤ)|) with
       | some true => some true
       | some false => resolution.dp_recursive 1 (resolution.simplify [[1, 2]] (-|(1 : ℤ)|))
       | none => none) :=
  ⟨C4_dp_step_amended.1 1 [{1, 2}] (by decide) (by decide),
   C4_dp_step_amended.2.2.1 1 1 [2] [] (by decide)⟩

/-- Claim C5: `simplify cnf l` consists of exactly the clauses of `cnf` not
containing `l`, each with every occurrence of `-l` removed, in order; a clause
emptied by that removal stays in the output as the empty clause.  The source
builds a fresh list and never mutates its input, which the embedding reflects
by `simplify` being a pure function. -/
theorem C5_simplify_spec (cnf : resolution.CNFFormula) (l : ℤ) :
    resolution.simplify cnf l =
      (cnf.filter (fun c => l ∉ c)).map (fun c => c.filter (fun x => x ≠ -l)) ∧
    (∀ c ∈ cnf, l ∉ c → c.filter (fun x => x ≠ -l) ∈ resolution.simplify cnf l) ∧
    (∀ c ∈ cnf, l ∉ c → c.filter (fun x => x ≠ -l) = [] →
      [] ∈ resolution.simplify cnf l) := by
  refine ⟨resolution.simplify_eq cnf l, ?_, ?_⟩
  · intro c hc hlc
    exact resolution.mem_simplify.2 ⟨c, hc, hlc, rfl⟩
  · intro c hc hlc hnil
    exact hnil ▸ resolution.mem_simplify.2 ⟨c, hc, hlc, rfl⟩

/-- Concrete instance of claim C5: simplifying under literal 1 drops `[1, 2]`,
empties `[-1]` and keeps the emptied clause. -/
theorem C5_simplify_spec_witness :
    resolution.simplify [[1, 2], [-1], [3]] 1 =
      (([[1, 2], [-1], [3]] : resolution.CNFFormula).filter (fun c => (1 : ℤ) ∉ c)).map
        (fun c => c.filter (fun x => x ≠ -1)) ∧
    [] ∈ resolution.simplify [[1, 2], [-1], [3]] 1 :=
  ⟨(C5_simplify_spec [[1, 2], [-1], [3]] 1).1,
   (C5_simplify_spec [[1, 2], [-1], [3]] 1).2.2 [-1] (by decide) (by decide) (by decide)⟩

/-- Claim C6: on well-formed input (the literal 0 occurs nowhere) every solver
of both files terminates with a definite SAT/UNSAT verdict: the fuelled models
never exhaust the fuel supplied by the top-level solvers, so each returns
`some b` for a Boolean `b`. -/
theorem C6_solvers_total (F : List (Finset ℤ)) (G : resolution.CNFFormula)
    (hzF : comparison.zero_free F) (hzG : resolution.zero_free G) :
    (∃ b, comparison.resolution_solver F = some b) ∧
    (∃ b, comparison.dp_solver F = some b) ∧
    (∃ b, comparison.dpll_solver F = some b) ∧
    (∃ b, resolution.resolution_solver G = some b) ∧
    (∃ b, resolution.dp_solver G = some b) ∧
    (∃ b, resolution.dpll_solver G = some b) := by
  refine ⟨comparison.resolution_solver_isSome_c F, comparison.dp_solver_isSome_c F, ?_,
    resolution.resolution_solver_isSome G, resolution.dp_solver_isSome G, ?_⟩
  · rcases comparison.dpll_solver_correct_c F hzF with ⟨b, hb, _⟩
    exact ⟨b, hb⟩
  · rcases resolution.dpll_solver_correct G hzG with ⟨b, hb, _⟩
    exact ⟨b, hb⟩

/-- Concrete instance of claim C6: all six solvers produce a verdict on a
one-clause formula. -/
theorem C6_solvers_total_witness :
    (∃ b, comparison.dpll_solver [({1} : Finset ℤ)] = some b) ∧
    (∃ b, resolution.dpll_solver [[1]] = some b) :=
  ⟨(C6_solvers_total [{1}] [[1]] (by unfold comparison.zero_free; decide)
      (by unfold resolution.zero_free; decide)).2.2.1,
   (C6_solvers_total [{1}] [[1]] (by unfold comparison.zero_free; decide)
      (by unfold resolution.zero_free; decide)).2.2.2.2.2⟩

/-- Claim C7: each solver's verdict is a function of the clause set alone.
Two comparison.py inputs with the same set of clauses, and two resolution.py
inputs whose clauses denote the same set of literal sets — differing only in
clause order, literal order, or duplicates — receive identical verdicts from
every solver.  For the five semantically meaningful solvers this follows from
the saturation loops operating on `set(cnf)` and from the DP/DPLL correctness
theorems; for the tautology-mishandling `dp_solver` of comparison.py it
follows from the balanced-core characterisation `dp_solver_char`. -/
theorem C7_verdict_function_of_clause_set
    (F1 F2 : List (Finset ℤ)) (G1 G2 : resolution.CNFFormula)
    (hF : F1.toFinset = F2.toFinset)
    (hG : (G1.map List.toFinset).toFinset = (G2.map List.toFinset).toFinset)
    (hzF : comparison.zero_free F1) (hzG : resolution.zero_free G1) :
    comparison.resolution_solver F1 = comparison.resolution_solver F2 ∧
    comparison.dp_solver F1 = comparison.dp_solver F2 ∧
    comparison.dpll_solver F1 = comparison.dpll_solver F2 ∧
    resolution.resolution_solver G1 = resolution.resolution_solver G2 ∧
    resolution.dp_solver G1 = resolution.dp_solver G2 ∧
    resolution.dpll_solver G1 = resolution.dpll_solver G2 := by
  have hzF2 := comparison.zero_free_of_toFinset_eq hF hzF
  have hzG2 := resolution.zero_free_of_sets_eq hG hzG
  refine ⟨?_, ?_, ?_, ?_, ?_, ?_⟩
  · unfold comparison.resolution_solver
    rw [comparison.lits_of_eq_of_toFinset_eq hF, hF]
  · rcases comparison.dp_solver_char F1 with ⟨b1, hb1, hc1⟩
    rcases comparison.dp_solver_char F2 with ⟨b2, hb2, hc2⟩
    rw [hF] at hc1
    have hbb : b1 = b2 := by cases b1 <;> cases b2 <;> simp_all
    rw [hb1, hb2, hbb]
  · rcases comparison.dpll_solver_correct_c F1 hzF with ⟨b1, hb1, hc1⟩
    rcases comparison.dpll_solver_correct_c F2 hzF2 with ⟨b2, hb2, hc2⟩
    rw [comparison.satisfiable_of_toFinset_eq hF] at hc1
    have hbb : b1 = b2 := by cases b1 <;> cases b2 <;> simp_all
    rw [hb1, hb2, hbb]
  · unfold resolution.resolution_solver
    rw [resolution.lits_of_eq_of_sets_eq hG, hG]
  · rcases resolution.dp_solver_correct G1 hzG with ⟨b1, hb1, hc1⟩
    rcases resolution.dp_solver_correct G2 hzG2 with ⟨b2, hb2, hc2⟩
    rw [resolution.satisfiable_of_sets_eq hG] at hc1
    have hbb : b1 = b2 := by cases b1 <;> cases b2 <;> simp_all
    rw [hb1, hb2, hbb]
  · rcases resolution.dpll_solver_correct G1 hzG with ⟨b1, hb1, hc1⟩
    rcases resolution.dpll_solver_correct G2 hzG2 with ⟨b2, hb2, hc2⟩
    rw [resolution.satisfiable_of_sets_eq hG] at hc1
    have hbb : b1 = b2 := by cases b1 <;> cases b2 <;> simp_all
    rw [hb1, hb2, hbb]

/-- Concrete instance of claim C7: reordering and duplicating clauses, or
reordering and duplicating literals inside a clause, does not change any
verdict. -/
theorem C7_verdict_function_of_clause_set_witness :
    comparison.dp_solver [({1} : Finset ℤ), {2}] = comparison.dp_solver [{2}, {1}, {1}] ∧
    resolution.dpll_solver [[1, 2]] = resolution.dpll_solver [[2, 1, 1]] :=
  ⟨(C7_verdict_function_of_clause_set [{1}, {2}] [{2}, {1}, {1}] [[1, 2]] [[2, 1, 1]]
      (by decide) (by decide) (by unfold comparison.zero_free; decide)
      (by unfold resolution.zero_free; decide)).2.1,
   (C7_verdict_function_of_clause_set [{1}, {2}] [{2}, {1}, {1}] [[1, 2]] [[2, 1, 1]]
      (by decide) (by decide) (by unfold comparison.zero_free; decide)
      (by unfold resolution.zero_free; decide)).2.2.2.2.2⟩

/-- Claim C8: simplification is monotone — the output has at most as many
clauses as the input, every output clause is an input clause with the
occurrences of `-l` removed and hence at most as long, and an empty clause of
the input survives into the output. -/
theorem C8_simplify_monotone (cnf : resolution.CNFFormula) (l : ℤ) :
    (resolution.simplify cnf l).length ≤ cnf.length ∧
    (∀ c' ∈ resolution.simplify cnf l, ∃ c ∈ cnf,
      c' = c.filter (fun x => x ≠ -l) ∧ c'.length ≤ c.length) ∧
    ([] ∈ cnf → [] ∈ resolution.simplify cnf l) := by
  refine ⟨resolution.length_simplify_le cnf l, ?_, ?_⟩
  · intro c' hc'
    rcases resolution.mem_simplify.1 hc' with ⟨c, hc, hlc, rfl⟩
    exact ⟨c, hc, rfl, List.length_filter_le _ _⟩
  · intro hemp
    have h : ([] : resolution.Clause).filter (fun x => x ≠ -l) ∈ resolution.simplify cnf l :=
      resolution.mem_simplify.2 ⟨[], hemp, by simp, rfl⟩
    simpa using h

/-- Concrete instance of claim C8 on a formula that already contains the empty
clause. -/
theorem C8_simplify_monotone_witness :
    (resolution.simplify [[], [1, 2]] 2).length ≤
      ([[], [1, 2]] : resolution.CNFFormula).length ∧
    [] ∈ resolution.simplify [[], [1, 2]] 2 :=
  ⟨(C8_simplify_monotone [[], [1, 2]] 2).1,
   (C8_simplify_monotone [[], [1, 2]] 2).2.2 (by decide)⟩

/-- Claim C9: on the empty formula every solver of both files answers SAT. -/
theorem C9_empty_formula_sat :
    comparison.resolution_solver [] = some true ∧
    comparison.dp_solver [] = some true ∧
    comparison.dpll_solver [] = some true ∧
    resolution.resolution_solver [] = some true ∧
    resolution.dp_solver [] = some true ∧
    resolution.dpll_solver [] = some true := by
  exact ⟨by decide, by decide, by decide, by decide, by decide, by decide⟩

/-- Claim C10: in `dpll_recursive` of resolution.py, whenever control reaches
the branching step the formula has no empty clause and, being nonempty there,
has a head clause with a head literal — so `cnf[0]` and `cnf[0][0]` never
index into an empty list: unit propagation re-checks for an empty clause
after each simplification, and pure-literal elimination only deletes whole
clauses, never shrinking one. -/
theorem C10_dpll_branch_safe (cnf cnf' : resolution.CNFFormula)
    (hemp : [] ∉ cnf)
    (hup : resolution.unit_prop ((resolution.vars_of cnf).card + 1) cnf =
      some (some cnf')) :
    (∀ c ∈ resolution.pure_elim cnf', c ≠ []) ∧
    (resolution.pure_elim cnf' ≠ [] →
      ∃ l c0 rest, resolution.pure_elim cnf' = (l :: c0) :: rest) := by
  rcases resolution.unit_prop_spec ((resolution.vars_of cnf).card + 1) cnf
    (Nat.lt_succ_self _) hemp with ⟨hnone, _⟩ | ⟨cnf'', hsome, hemp'', _, _⟩
  · rw [hup] at hnone
    exact absurd hnone (by simp)
  · have heq : cnf'' = cnf' := by
      have h := hsome.symm.trans hup
      exact Option.some_inj.1 (Option.some_inj.1 h)
    subst heq
    have hmem := (resolution.pure_elim_spec cnf'').1
    have hsafe : ∀ c ∈ resolution.pure_elim cnf'', c ≠ [] := by
      intro c hc hnil
      exact hemp'' (hnil ▸ hmem c hc)
    refine ⟨hsafe, ?_⟩
    intro hne
    rcases hpe : resolution.pure_elim cnf'' with _ | ⟨c, rest⟩
    · exact absurd hpe hne
    · rcases c with _ | ⟨l, c0⟩
      · exact absurd rfl (hsafe [] (hpe ▸ List.mem_cons_self _ _))
      · exact ⟨l, c0, rest, rfl⟩

/-- Concrete instance of claim C10 on a formula with no unit clauses and no
pure literals. -/
theorem C10_dpll_branch_safe_witness :
    (∀ c ∈ resolution.pure_elim [[1, -2], [2, -1]], c ≠ []) ∧
    (resolution.pure_elim [[1, -2], [2, -1]] ≠ [] →
      ∃ l c0 rest, resolution.pure_elim [[1, -2], [2, -1]] = (l :: c0) :: rest) :=
  C10_dpll_branch_safe [[1, -2], [2, -1]] [[1, -2], [2, -1]] (by decide) (by decide)
